import Mathlib

/-!
# ext_flash_littlefs example: the orchestration helpers over a mocked platform

Embedding of `main/ext_flash_littlefs_example_main.c`.  Every call into the
SPI, partition, LittleFS and libc libraries goes through a `World`, a mocked
platform with its own state; each program function threads that state and a
trace of the calls it made.  Loops take a fuel argument and stop with
`Stop.fuel` when it runs out.

* `size_t` and `uint32_t` are 32 bit, as on every ESP32 core; values are
  natural numbers reduced modulo 2^32 where the C code can wrap.
* The macro `ESP_ERROR_CHECK` is not part of the repository; whether a failed
  check aborts is a field of the platform.
* Passing `NULL` to `readdir`, which the code does when `opendir` fails,
  stops the run with `Stop.null_deref`.
* The helpers nested in `app_main` are embedded as functions of their own;
  of them `app_main` itself calls `list_files_in_extflash` only.
-/

namespace ExtFlash

/-! ## C types -/

/-- The `esp_err_t` error code, an `int`. -/
abbrev esp_err_t := Int

/-- The success code `ESP_OK`. -/
abbrev ESP_OK : esp_err_t := 0

/-- A C string. -/
abbrev CStr := List Char

/-- One octet, a value below 256. -/
abbrev Byte := Nat

/-- Number of values of `size_t` on the ESP32 family (32 bit). -/
abbrev SIZE_T : Nat := 4294967296

/-- Number of values of `uint32_t`. -/
abbrev UINT32 : Nat := 4294967296

/-- Number of values of `uint64_t`. -/
abbrev UINT64 : Nat := 18446744073709551616

/-- Object representation of an unsigned value in `n` octets, least
significant octet first (all ESP32 cores are little endian); this is what
`fwrite (&x, sizeof x, 1, f)` hands to the stream. -/
def le_bytes : Nat → Nat → List Byte
  | 0, _ => []
  | n + 1, v => v % 256 :: le_bytes n (v / 256)

/-- The string `"/extflash"`, the mount point (`base_path`). -/
def base_path : CStr := ['/', 'e', 'x', 't', 'f', 'l', 'a', 's', 'h']

/-- Result of `sprintf (path, "/extflash/%s", name)`. -/
def sprintf_path (name : CStr) : CStr := base_path ++ '/' :: name

/-! ## Trace of a run -/

/-- Severity of an `ESP_LOGx` line. -/
inductive Level where
  | info
  | error
  deriving DecidableEq, Repr

/-- Lines written with `printf`. -/
inductive Line where
  /-- Line `File name: %s, size: %ld bytes`; the size is `none` while `st`
  still holds its indeterminate initial value. -/
  | file (path : CStr) (st_size : Option Nat)
  /-- Line `LittleFS: %d B total, %d B used`. -/
  | usage (bytes_total bytes_used : Nat)
  /-- Line `Deleting file: %s`. -/
  | deleting (d_name : CStr)
  /-- Line `Time taken to write: %lld us`. -/
  | time_taken (us : Nat)
  /-- Line `Free space: %ld %d bytes`. -/
  | free_space (data free_space : Nat)
  deriving DecidableEq, Repr

/-- What a run leaves in its trace: each external call with its result, each
output line, and two markers for the calls of the helpers themselves. -/
inductive Event where
  /-- Call of `spi_bus_initialize`. -/
  | spi_bus_init (err : esp_err_t)
  | spi_bus_add_flash_device (err : esp_err_t)
  | esp_flash_init (err : esp_err_t)
  | esp_flash_read_id (err : esp_err_t)
  | esp_partition_register_external (err : esp_err_t)
  | esp_partition_find (it : Option Nat)
  | esp_partition_get (it : Nat)
  | esp_partition_next (it : Nat) (next : Option Nat)
  | esp_partition_iterator_release (it : Option Nat)
  | esp_vfs_littlefs_register (err : esp_err_t)
  | opendir (path : CStr) (dir : Option Nat)
  | readdir (dir : Nat) (entry : Option CStr)
  | stat (path : CStr) (st_size : Option Nat)
  | unlink (path : CStr) (ret : Int)
  | closedir (dir : Nat)
  | fopen (path : CStr) (f : Option Nat)
  | fwrite (bytes : List Byte) (f : Nat) (ret : Nat)
  | fclose (f : Nat)
  | esp_littlefs_partition_info (err : esp_err_t) (total used : Nat)
  | esp_timer_get_time (t : Int)
  | log (level : Level) (msg : String)
  | printf (line : Line)
  /-- Marker: `write_timestamp_and_data_to_file` was entered. -/
  | enter_write (file_path : CStr) (timestamp data : Nat)
  /-- Marker: `get_littlefs_free_space` returns `free_space`; `err`, `total`
  and `used` are what its usage query gave. -/
  | ret_free_space (err : esp_err_t) (total used free_space : Nat)
  deriving DecidableEq, Repr

/-! ## The mocked platform -/

/-- The libraries the program calls, as a mock with state `σ`.  Pointers
(`DIR *`, `FILE *`, partition iterators) are numbers, `none` is `NULL`. -/
structure World (σ : Type) where
  /-- Whether a failed `ESP_ERROR_CHECK` calls `abort ()` (the default
  build); `false` is the `NDEBUG` build, where the macro only evaluates its
  argument.  The macro comes from `esp_err.h`. -/
  error_check_aborts : Bool
  /-- Call `spi_bus_initialize`. -/
  spi_bus_init : σ → esp_err_t × σ
  spi_bus_add_flash_device : σ → esp_err_t × σ
  esp_flash_init : σ → esp_err_t × σ
  esp_flash_read_id : σ → esp_err_t × σ
  esp_partition_register_external : σ → esp_err_t × σ
  esp_partition_find : σ → Option Nat × σ
  esp_partition_next : Nat → σ → Option Nat × σ
  esp_vfs_littlefs_register : σ → esp_err_t × σ
  opendir : CStr → σ → Option Nat × σ
  readdir : Nat → σ → Option CStr × σ
  /-- Call `stat`: `some st_size` when it fills `st`, `none` when it fails. -/
  stat : CStr → σ → Option Nat × σ
  unlink : CStr → σ → Int × σ
  closedir : Nat → σ → σ
  /-- Call `fopen (path, "a")`. -/
  fopen : CStr → σ → Option Nat × σ
  /-- Call `fwrite (ptr, size, 1, f)` on the `size` octets given; returns
  the number of items written. -/
  fwrite : List Byte → Nat → σ → Nat × σ
  fclose : Nat → σ → σ
  /-- Call `esp_littlefs_partition_info`: the error code and what is left in
  the two output arguments. -/
  esp_littlefs_partition_info : σ → (esp_err_t × Nat × Nat) × σ
  esp_timer_get_time : σ → Int × σ

/-! ## Runs -/

/-- Why a run stops short of returning. -/
inductive Stop where
  /-- A failed `ESP_ERROR_CHECK` called `abort ()`. -/
  | abort
  /-- The program passed `NULL` to `readdir`. -/
  | null_deref
  /-- The fuel ran out inside a loop. -/
  | fuel
  deriving DecidableEq, Repr

/-- How a run ends. -/
inductive Res (α : Type) where
  | ret (a : α)
  | stop (s : Stop)
  deriving DecidableEq, Repr

/-- State of a run: the platform and the trace so far, oldest event first. -/
structure St (σ : Type) where
  world : σ
  trace : List Event
  deriving DecidableEq, Repr

/-- A program over the mocked platform. -/
def Prog (σ α : Type) : Type := St σ → Res α × St σ

/-- Return a value. -/
def Prog.pure {σ α : Type} (a : α) : Prog σ α := fun s => (Res.ret a, s)

/-- Sequence two programs; a stop ends the run. -/
def Prog.bind {σ α β : Type} (x : Prog σ α) (f : α → Prog σ β) : Prog σ β :=
  fun s =>
    match x s with
    | (Res.ret a, s1) => f a s1
    | (Res.stop e, s1) => (Res.stop e, s1)

instance {σ : Type} : Monad (Prog σ) where
  pure := Prog.pure
  bind := Prog.bind

/-- Stop the run. -/
def halt {σ α : Type} (e : Stop) : Prog σ α := fun s => (Res.stop e, s)

/-- Add an event to the trace. -/
def emit {σ : Type} (e : Event) : Prog σ Unit :=
  fun s => (Res.ret (), { s with trace := s.trace ++ [e] })

/-- Make an external call and record it with its result. -/
def call {σ α : Type} (f : σ → α × σ) (ev : α → Event) : Prog σ α :=
  fun s => (Res.ret (f s.world).1, ⟨(f s.world).2, s.trace ++ [ev (f s.world).1]⟩)

/-- Make an external call that has no result. -/
def call_void {σ : Type} (f : σ → σ) (ev : Event) : Prog σ Unit :=
  fun s => (Res.ret (), ⟨f s.world, s.trace ++ [ev]⟩)

/-- Run a program from a platform state with an empty trace. -/
def Prog.run {σ α : Type} (p : Prog σ α) (w0 : σ) : Res α × St σ := p ⟨w0, []⟩

/-- The macro `ESP_ERROR_CHECK`. -/
def ESP_ERROR_CHECK {σ : Type} (w : World σ) (err : esp_err_t) : Prog σ Unit :=
  if err ≠ ESP_OK ∧ w.error_check_aborts = true then halt Stop.abort else pure ()

/-! ## The helpers nested in `app_main` -/

/-- The loop of `list_files_in_extflash`; `st_size` is the `st.st_size` left
by the last `stat` that succeeded. -/
def list_files_loop {σ : Type} (w : World σ) (dir : Nat) :
    Nat → Option Nat → Prog σ Unit
  | 0, _ => halt Stop.fuel
  | fuel + 1, st_size => do
    let entry ← call (w.readdir dir) (Event.readdir dir)
    match entry with
    | none => pure ()
    | some d_name => do
      let path := sprintf_path d_name
      let r ← call (w.stat path) (Event.stat path)
      let st_size1 := match r with
        | some v => some v
        | none => st_size
      emit (Event.printf (Line.file path st_size1))
      list_files_loop w dir fuel st_size1

/-- The function `list_files_in_extflash`. -/
def list_files_in_extflash {σ : Type} (w : World σ) (fuel : Nat) : Prog σ Unit := do
  let dir ← call (w.opendir base_path) (Event.opendir base_path)
  match dir with
  | none => halt Stop.null_deref
  | some d => do
    list_files_loop w d fuel none
    call_void (w.closedir d) (Event.closedir d)
    let r ← call w.esp_littlefs_partition_info
      (fun r => Event.esp_littlefs_partition_info r.1 r.2.1 r.2.2)
    if r.1 ≠ ESP_OK then
      emit (Event.log Level.error "Failed to get LittleFS info")
    else
      emit (Event.printf (Line.usage (r.2.1 % SIZE_T) (r.2.2 % SIZE_T)))

/-- The loop of `delete_all_files_in_extflash`. -/
def delete_all_loop {σ : Type} (w : World σ) (dir : Nat) : Nat → Prog σ Unit
  | 0 => halt Stop.fuel
  | fuel + 1 => do
    let entry ← call (w.readdir dir) (Event.readdir dir)
    match entry with
    | none => pure ()
    | some d_name => do
      emit (Event.printf (Line.deleting d_name))
      let path := sprintf_path d_name
      let _ ← call (w.stat path) (Event.stat path)
      let _ ← call (w.unlink path) (Event.unlink path)
      delete_all_loop w dir fuel

/-- The function `delete_all_files_in_extflash`. -/
def delete_all_files_in_extflash {σ : Type} (w : World σ) (fuel : Nat) : Prog σ Unit := do
  let dir ← call (w.opendir base_path) (Event.opendir base_path)
  match dir with
  | none => halt Stop.null_deref
  | some d => do
    delete_all_loop w d fuel
    call_void (w.closedir d) (Event.closedir d)

/-- The function `write_timestamp_and_data_to_file`. -/
def write_timestamp_and_data_to_file {σ : Type} (w : World σ) (file_path : CStr)
    (timestamp data : Nat) : Prog σ Unit := do
  emit (Event.enter_write file_path timestamp data)
  let f ← call (w.fopen file_path) (Event.fopen file_path)
  match f with
  | none => emit (Event.log Level.error "Failed to open file for writing")
  | some f => do
    let _ ← call (w.fwrite (le_bytes 8 timestamp) f) (Event.fwrite (le_bytes 8 timestamp) f)
    let _ ← call (w.fwrite (le_bytes 4 data) f) (Event.fwrite (le_bytes 4 data) f)
    call_void (w.fclose f) (Event.fclose f)

/-- The function `get_littlefs_free_space`. -/
def get_littlefs_free_space {σ : Type} (w : World σ) : Prog σ Nat := do
  let r ← call w.esp_littlefs_partition_info
    (fun r => Event.esp_littlefs_partition_info r.1 r.2.1 r.2.2)
  let total_space := r.2.1 % SIZE_T
  let used_space := r.2.2 % SIZE_T
  if r.1 ≠ ESP_OK then do
    emit (Event.log Level.error "Failed to get LittleFS info")
    emit (Event.ret_free_space r.1 total_space used_space 0)
    pure 0
  else do
    let free_space := (total_space + SIZE_T - used_space) % SIZE_T
    emit (Event.ret_free_space r.1 total_space used_space free_space)
    pure free_space

/-- The value of `data_size`, `sizeof (timestamp) + sizeof (data)`. -/
def data_size : Nat := 8 + 4

/-- The `while` loop of `fill_flash_with_data`. -/
def fill_loop {σ : Type} (w : World σ) (file_path : CStr) :
    Nat → Nat → Nat → Prog σ Unit
  | 0, _, free_space => if free_space ≥ data_size then halt Stop.fuel else pure ()
  | fuel + 1, data, free_space =>
    if free_space ≥ data_size then do
      let t ← call w.esp_timer_get_time Event.esp_timer_get_time
      let timestamp := (t % (UINT64 : Int)).toNat
      write_timestamp_and_data_to_file w file_path timestamp data
      let t2 ← call w.esp_timer_get_time Event.esp_timer_get_time
      let timestamp2 := (t2 % (UINT64 : Int)).toNat
      emit (Event.printf (Line.time_taken ((timestamp2 + UINT64 - timestamp) % UINT64)))
      let free_space1 ← get_littlefs_free_space w
      emit (Event.printf (Line.free_space data free_space1))
      let data1 := (data + 1) % UINT32
      if data1 % 1000 = 0 then
        list_files_in_extflash w fuel
      fill_loop w file_path fuel data1 free_space1
    else pure ()

/-- The function `fill_flash_with_data`. -/
def fill_flash_with_data {σ : Type} (w : World σ) (file_path : CStr) (fuel : Nat) :
    Prog σ Unit := do
  let free_space ← get_littlefs_free_space w
  fill_loop w file_path fuel 0 free_space
  emit (Event.log Level.info "Flash is full. No more space to write data.")

/-! ## Start-up -/

/-- The function `example_init_ext_flash`; `true` stands for a non-null
`esp_flash_t *`. -/
def example_init_ext_flash {σ : Type} (w : World σ) : Prog σ Bool := do
  emit (Event.log Level.info "Initializing external SPI Flash")
  emit (Event.log Level.info "Pin assignments:")
  emit (Event.log Level.info "MOSI MISO SCLK CS")
  emit (Event.log Level.info "DMA CHANNEL")
  let e1 ← call w.spi_bus_init Event.spi_bus_init
  ESP_ERROR_CHECK w e1
  let e2 ← call w.spi_bus_add_flash_device Event.spi_bus_add_flash_device
  ESP_ERROR_CHECK w e2
  let err ← call w.esp_flash_init Event.esp_flash_init
  if err ≠ ESP_OK then do
    emit (Event.log Level.error "Failed to initialize external Flash")
    pure false
  else do
    let e3 ← call w.esp_flash_read_id Event.esp_flash_read_id
    ESP_ERROR_CHECK w e3
    emit (Event.log Level.info "Initialized external Flash")
    pure true

/-- The function `example_add_partition`. -/
def example_add_partition {σ : Type} (w : World σ) : Prog σ Unit := do
  emit (Event.log Level.info "Adding external Flash as a partition")
  let e ← call w.esp_partition_register_external Event.esp_partition_register_external
  ESP_ERROR_CHECK w e

/-- The `for` loop of `example_list_data_partitions`. -/
def list_partitions_loop {σ : Type} (w : World σ) : Nat → Option Nat → Prog σ (Option Nat)
  | _, none => pure none
  | 0, some _ => halt Stop.fuel
  | fuel + 1, some it => do
    emit (Event.esp_partition_get it)
    emit (Event.log Level.info "- partition")
    let next ← call (w.esp_partition_next it) (Event.esp_partition_next it)
    list_partitions_loop w fuel next

/-- The function `example_list_data_partitions`. -/
def example_list_data_partitions {σ : Type} (w : World σ) (fuel : Nat) : Prog σ Unit := do
  emit (Event.log Level.info "Listing data partitions:")
  let it ← call w.esp_partition_find Event.esp_partition_find
  let it1 ← list_partitions_loop w fuel it
  emit (Event.esp_partition_iterator_release it1)

/-- The function `example_mount_littlefs`. -/
def example_mount_littlefs {σ : Type} (w : World σ) : Prog σ Bool := do
  emit (Event.log Level.info "Mounting LittleFS filesystem")
  let err ← call w.esp_vfs_littlefs_register Event.esp_vfs_littlefs_register
  if err ≠ ESP_OK then do
    emit (Event.log Level.error "Failed to mount LittleFS")
    pure false
  else
    pure true

/-- The function `app_main`. -/
def app_main {σ : Type} (w : World σ) (fuel : Nat) : Prog σ Unit := do
  let flash ← example_init_ext_flash w
  if flash = false then
    pure ()
  else do
    example_add_partition w
    example_list_data_partitions w fuel
    let mounted ← example_mount_littlefs w
    if mounted = false then
      pure ()
    else
      list_files_in_extflash w fuel

/-! ## A scripted mock

Canned answers, used to run the helpers on concrete inputs. -/

/-- State of the scripted mock. -/
structure Script where
  /-- Answer of `spi_bus_initialize`. -/
  bus : esp_err_t
  /-- Answer of `spi_bus_add_flash_device`. -/
  device : esp_err_t
  /-- Answer of `esp_flash_init`. -/
  probe : esp_err_t
  /-- Answer of `esp_flash_read_id`. -/
  read_id : esp_err_t
  /-- Answer of `esp_partition_register_external`. -/
  register : esp_err_t
  /-- Answer of `esp_vfs_littlefs_register`. -/
  mount : esp_err_t
  /-- Answers of the successive usage queries; once used up, the query fails. -/
  infos : List (esp_err_t × Nat × Nat)
  /-- Answers of the successive `fopen` calls; once used up, `fopen` succeeds. -/
  fopens : List (Option Nat)
  /-- Entries the successive `readdir` calls return before `NULL`. -/
  entries : List CStr
  /-- Next value of `esp_timer_get_time`. -/
  clock : Int
  deriving DecidableEq, Repr

/-- The scripted mock. -/
def scripted (aborts : Bool) : World Script where
  error_check_aborts := aborts
  spi_bus_init := fun s => (s.bus, s)
  spi_bus_add_flash_device := fun s => (s.device, s)
  esp_flash_init := fun s => (s.probe, s)
  esp_flash_read_id := fun s => (s.read_id, s)
  esp_partition_register_external := fun s => (s.register, s)
  esp_partition_find := fun s => (none, s)
  esp_partition_next := fun _ s => (none, s)
  esp_vfs_littlefs_register := fun s => (s.mount, s)
  opendir := fun _ s => (some 1, s)
  readdir := fun _ s =>
    match s.entries with
    | [] => (none, s)
    | e :: rest => (some e, { s with entries := rest })
  stat := fun _ s => (none, s)
  unlink := fun _ s => (-1, s)
  closedir := fun _ s => s
  fopen := fun _ s =>
    match s.fopens with
    | [] => (some 3, s)
    | f :: rest => (f, { s with fopens := rest })
  fwrite := fun _ _ s => (1, s)
  fclose := fun _ s => s
  esp_littlefs_partition_info := fun s =>
    match s.infos with
    | [] => ((-1, 0, 0), s)
    | i :: rest => (i, { s with infos := rest })
  esp_timer_get_time := fun s => (s.clock, { s with clock := s.clock + 1 })

/-- A script in which every start-up call succeeds. -/
def Script.good : Script :=
  { bus := 0, device := 0, probe := 0, read_id := 0, register := 0, mount := 0,
    infos := [], fopens := [], entries := [], clock := 0 }

/-! ## An in-memory mock filesystem

One directory, the mount root `/extflash`, holding regular files and
subdirectories, on a medium of `total` octets; `used` is the sum of the file
sizes.  The calls behave as their POSIX descriptions say:

* `opendir` on the mount root opens a stream over the entries present at
  that moment, `readdir` returns them one by one, then `NULL`;
* `stat` gives the size of an entry, and fails on a path that names none;
* `unlink` removes a regular file, and fails on a subdirectory (`EISDIR`)
  and on a path that names no entry;
* `fopen (path, "a")` opens a regular file of the root, creating it empty
  when absent, and gives `NULL` for a subdirectory or a path outside the root;
* `fwrite` appends its octets to the open file and reports 1 item, or, when
  the medium has no room for them, stores nothing and reports 0;
* the usage query succeeds and reports `total` and `used`. -/

/-- An entry of the root directory. -/
inductive Node where
  | file (bytes : List Byte)
  | dir
  deriving DecidableEq, Repr

/-- State of the in-memory filesystem. -/
structure MemFS where
  /-- The root directory: names and what they name. -/
  entries : List (CStr × Node)
  /-- Capacity of the medium in octets. -/
  total : Nat
  /-- Names the open `DIR` stream has yet to return. -/
  dir_stream : List CStr
  /-- Name of the file behind the open `FILE`, if there is one. -/
  open_file : Option CStr
  /-- Next value of `esp_timer_get_time`. -/
  clock : Int
  deriving DecidableEq, Repr

/-- Size of an entry as `stat` reports it. -/
def Node.size : Node → Nat
  | Node.file bytes => bytes.length
  | Node.dir => 0

/-- Octets in use: the sum of the sizes of the entries. -/
def used_bytes : List (CStr × Node) → Nat
  | [] => 0
  | e :: rest => e.2.size + used_bytes rest

/-- First entry with the given name. -/
def lookup (name : CStr) : List (CStr × Node) → Option Node
  | [] => none
  | e :: rest => if e.1 = name then some e.2 else lookup name rest

/-- Remove the first entry with the given name. -/
def remove (name : CStr) : List (CStr × Node) → List (CStr × Node)
  | [] => []
  | e :: rest => if e.1 = name then rest else e :: remove name rest

/-- Append octets to the first entry with the given name, a regular file. -/
def append_to (name : CStr) (bytes : List Byte) : List (CStr × Node) → List (CStr × Node)
  | [] => []
  | e :: rest =>
    if e.1 = name then
      match e.2 with
      | Node.file old => (e.1, Node.file (old ++ bytes)) :: rest
      | Node.dir => e :: rest
    else e :: append_to name bytes rest

/-- Drop a leading `pre` from a string, `none` when it does not start with it. -/
def strip_leading : CStr → CStr → Option CStr
  | [], s => some s
  | _ :: _, [] => none
  | c :: pre, d :: s => if c = d then strip_leading pre s else none

/-- The name a path has in the root directory: `/extflash/name`. -/
def resolve (path : CStr) : Option CStr := strip_leading (base_path ++ ['/']) path

/-- The in-memory filesystem as a platform; the start-up calls succeed. -/
def memfs : World MemFS where
  error_check_aborts := true
  spi_bus_init := fun s => (ESP_OK, s)
  spi_bus_add_flash_device := fun s => (ESP_OK, s)
  esp_flash_init := fun s => (ESP_OK, s)
  esp_flash_read_id := fun s => (ESP_OK, s)
  esp_partition_register_external := fun s => (ESP_OK, s)
  esp_partition_find := fun s => (none, s)
  esp_partition_next := fun _ s => (none, s)
  esp_vfs_littlefs_register := fun s => (ESP_OK, s)
  opendir := fun path s =>
    if path = base_path then (some 1, { s with dir_stream := s.entries.map Prod.fst })
    else (none, s)
  readdir := fun _ s =>
    match s.dir_stream with
    | [] => (none, s)
    | e :: rest => (some e, { s with dir_stream := rest })
  stat := fun path s =>
    match resolve path with
    | none => (none, s)
    | some name => ((lookup name s.entries).map Node.size, s)
  unlink := fun path s =>
    match resolve path with
    | none => (-1, s)
    | some name =>
      match lookup name s.entries with
      | some (Node.file _) => (0, { s with entries := remove name s.entries })
      | _ => (-1, s)
  closedir := fun _ s => { s with dir_stream := [] }
  fopen := fun path s =>
    match resolve path with
    | none => (none, s)
    | some name =>
      match lookup name s.entries with
      | some (Node.file _) => (some 1, { s with open_file := some name })
      | some Node.dir => (none, s)
      | none =>
        (some 1, { s with entries := s.entries ++ [(name, Node.file [])],
                          open_file := some name })
  fwrite := fun bytes _ s =>
    match s.open_file with
    | none => (0, s)
    | some name =>
      if used_bytes s.entries + bytes.length ≤ s.total then
        (1, { s with entries := append_to name bytes s.entries })
      else (0, s)
  fclose := fun _ s => { s with open_file := none }
  esp_littlefs_partition_info := fun s => ((ESP_OK, s.total, used_bytes s.entries), s)
  esp_timer_get_time := fun s => (s.clock, { s with clock := s.clock + 1 })

/-- An empty filesystem on a medium of `total` octets. -/
def MemFS.empty (total : Nat) : MemFS :=
  { entries := [], total := total, dir_stream := [], open_file := none, clock := 0 }

/-! ## Reading a trace -/

/-- Events a directory walk leaves: directory calls, usage queries and
output lines. -/
def is_listing : Event → Bool
  | Event.opendir _ _ => true
  | Event.readdir _ _ => true
  | Event.stat _ _ => true
  | Event.closedir _ => true
  | Event.esp_littlefs_partition_info _ _ _ => true
  | Event.printf _ => true
  | Event.log _ _ => true
  | _ => false

/-- Events of the append path: the timer, the calls of the two helpers and
the stream calls. -/
def is_key : Event → Bool
  | Event.esp_timer_get_time _ => true
  | Event.enter_write _ _ _ => true
  | Event.fopen _ _ => true
  | Event.fwrite _ _ _ => true
  | Event.fclose _ => true
  | Event.ret_free_space _ _ _ _ => true
  | _ => false

/-- File and directory operations, the usage query included. -/
def is_file_op : Event → Bool
  | Event.opendir _ _ => true
  | Event.readdir _ _ => true
  | Event.stat _ _ => true
  | Event.unlink _ _ => true
  | Event.closedir _ => true
  | Event.fopen _ _ => true
  | Event.fwrite _ _ _ => true
  | Event.fclose _ => true
  | Event.esp_littlefs_partition_info _ _ _ => true
  | _ => false

/-- Events of the start-up sequence before the mount: the flash and
partition calls and log lines. -/
def is_startup : Event → Bool
  | Event.spi_bus_init _ => true
  | Event.spi_bus_add_flash_device _ => true
  | Event.esp_flash_init _ => true
  | Event.esp_flash_read_id _ => true
  | Event.esp_partition_register_external _ => true
  | Event.esp_partition_find _ => true
  | Event.esp_partition_get _ => true
  | Event.esp_partition_next _ _ => true
  | Event.esp_partition_iterator_release _ => true
  | Event.log _ _ => true
  | _ => false

/-- Registration of the partition or of the filesystem. -/
def is_partition_or_mount : Event → Bool
  | Event.esp_partition_register_external _ => true
  | Event.esp_vfs_littlefs_register _ => true
  | _ => false

/-- The place of a call in the flash start-up: bus, device, probe, id read. -/
def flash_step : Event → Option Nat
  | Event.spi_bus_init _ => some 0
  | Event.spi_bus_add_flash_device _ => some 1
  | Event.esp_flash_init _ => some 2
  | Event.esp_flash_read_id _ => some 3
  | _ => none

/-- The error code of a flash start-up call. -/
def flash_step_err : Event → Option esp_err_t
  | Event.spi_bus_init err => some err
  | Event.spi_bus_add_flash_device err => some err
  | Event.esp_flash_init err => some err
  | Event.esp_flash_read_id err => some err
  | _ => none

/-- The four log lines `example_init_ext_flash` starts with. -/
def init_logs : List Event :=
  [Event.log Level.info "Initializing external SPI Flash",
   Event.log Level.info "Pin assignments:",
   Event.log Level.info "MOSI MISO SCLK CS",
   Event.log Level.info "DMA CHANNEL"]

/-- Successive calls of `write_timestamp_and_data_to_file` on one path, one
for each timestamp and counter value given. -/
def write_all {σ : Type} (w : World σ) (file_path : CStr) : List (Nat × Nat) → Prog σ Unit
  | [] => pure ()
  | rec :: rest => do
    write_timestamp_and_data_to_file w file_path rec.1 rec.2
    write_all w file_path rest

/-- Content of the regular file of that name in the root directory, empty
when there is none. -/
def file_bytes (name : CStr) (entries : List (CStr × Node)) : List Byte :=
  match lookup name entries with
  | some (Node.file bytes) => bytes
  | _ => []

/-- The names the `readdir` calls of a trace returned. -/
def listed (tr : List Event) : List CStr :=
  tr.filterMap fun e =>
    match e with
    | Event.readdir _ entry => entry
    | _ => none

/-- What a listing over the in-memory filesystem leaves for one entry. -/
def listing_events (entries : List (CStr × Node)) (name : CStr) : List Event :=
  [Event.readdir 1 (some name),
   Event.stat (sprintf_path name) ((lookup name entries).map Node.size),
   Event.printf (Line.file (sprintf_path name) ((lookup name entries).map Node.size))]

/-- A program over the in-memory filesystem leaves the root directory and
the capacity of the medium as they are. -/
def Keeps {α : Type} (p : Prog MemFS α) : Prop :=
  ∀ s : St MemFS,
    (p s).2.world.entries = s.world.entries ∧ (p s).2.world.total = s.world.total

/-- Every event a program adds to the trace satisfies `P`. -/
def Adds {σ α : Type} (P : Event → Prop) (p : Prog σ α) : Prop :=
  ∀ s : St σ, ∃ d, (p s).2.trace = s.trace ++ d ∧ ∀ e ∈ d, P e

/-- What `get_littlefs_free_space` saw and returned: the error code of its
usage query, the two output arguments as `size_t` values, and its result. -/
structure Reading where
  err : esp_err_t
  total : Nat
  used : Nat
  free_space : Nat
  deriving DecidableEq, Repr

/-- A free-space reading or the start of an append. -/
inductive Mark where
  /-- The helper `get_littlefs_free_space` returned. -/
  | reading (r : Reading)
  /-- The helper `write_timestamp_and_data_to_file` was called. -/
  | append
  deriving DecidableEq, Repr

/-- The mark an event leaves, if it is one of the two. -/
def mark_of : Event → Option Mark
  | Event.ret_free_space err total used v => some (Mark.reading ⟨err, total, used, v⟩)
  | Event.enter_write _ _ _ => some Mark.append
  | _ => none

/-- The readings and appends of a trace, in order. -/
def marks (tr : List Event) : List Mark := tr.filterMap mark_of

/-- The reading of a mark. -/
def Mark.reading? : Mark → Option Reading
  | Mark.reading r => some r
  | Mark.append => none

/-- The free-space readings of a trace, in order. -/
def readings (tr : List Event) : List Reading := (marks tr).filterMap Mark.reading?

/-- Readings each followed by an append. -/
def appends_after (rs : List Reading) : List Mark :=
  rs.flatMap (fun r => [Mark.reading r, Mark.append])

/-- Octets an event stores in the file: those of an `fwrite` that reports
its one item written. -/
def stored : Event → List Byte
  | Event.fwrite bytes _ ret => if ret = 1 then bytes else []
  | _ => []

/-- All octets the `fwrite` calls of a trace stored, in order. -/
def appended (tr : List Event) : List Byte := tr.flatMap stored

/-- The event is not an `fopen` that gave `NULL`. -/
def opened : Event → Bool
  | Event.fopen _ none => false
  | _ => true

/-- The event is not an `fwrite` that reports anything but one item written. -/
def wrote_item : Event → Bool
  | Event.fwrite _ _ ret => ret = 1
  | _ => true

/-- Events of an append: timer readings, calls of the append helper and the
stream calls `fopen`, `fwrite`, `fclose`. -/
def is_append_path : Event → Bool
  | Event.esp_timer_get_time _ => true
  | Event.enter_write _ _ _ => true
  | Event.fopen _ _ => true
  | Event.fwrite _ _ _ => true
  | Event.fclose _ => true
  | _ => false

/-- The `uint64_t` a timer value is stored in. -/
def stamp (t : Int) : Nat := (t % (UINT64 : Int)).toNat

/-- A turn of the fill loop whose append went through: the timer value read
before the append, the stream `fopen` gave, the timer value read after. -/
structure Turn where
  t : Int
  f : Nat
  t2 : Int
  deriving DecidableEq, Repr

/-- The append-path events of successive turns whose appends went through,
numbered from `k`: the timer gives `t`; the append helper is called with it
and the counter `k mod 2^32`; `fopen` on the target path gives the stream
`f`; the 8 octets of the timestamp, then the 4 octets of the counter are
written to `f`, each write reporting its item; `f` is closed; the timer
gives `t2`. -/
def turn_events (path : CStr) : Nat → List Turn → List Event
  | _, [] => []
  | k, tn :: rest =>
    [Event.esp_timer_get_time tn.t, Event.enter_write path (stamp tn.t) (k % UINT32),
      Event.fopen path (some tn.f),
      Event.fwrite (le_bytes 8 (stamp tn.t)) tn.f 1,
      Event.fwrite (le_bytes 4 (k % UINT32)) tn.f 1,
      Event.fclose tn.f,
      Event.esp_timer_get_time tn.t2] ++ turn_events path (k + 1) rest

/-- Records of successive turns, numbered from `k`: the 8 octets of the
timestamp, then the 4 octets of the counter `k mod 2^32`. -/
def records_from : Nat → List Int → List Byte
  | _, [] => []
  | k, t :: rest => (le_bytes 8 (stamp t) ++ le_bytes 4 (k % UINT32)) ++ records_from (k + 1) rest

/-- The value `get_littlefs_free_space` computes from the answer of its
usage query. -/
def free_of (info : esp_err_t × Nat × Nat) : Nat :=
  if info.1 ≠ ESP_OK then 0 else (info.2.1 % SIZE_T + SIZE_T - info.2.2 % SIZE_T) % SIZE_T

/-- The reading `get_littlefs_free_space` makes of an answer of its query. -/
def reading_of (info : esp_err_t × Nat × Nat) : Reading :=
  ⟨info.1, info.2.1 % SIZE_T, info.2.2 % SIZE_T, free_of info⟩

/-- The marker `get_littlefs_free_space` leaves for an answer of its query. -/
def reading_event (info : esp_err_t × Nat × Nat) : Event :=
  Event.ret_free_space info.1 (info.2.1 % SIZE_T) (info.2.2 % SIZE_T) (free_of info)

/-- A reading is consistent: both arguments are `size_t` values and the
result is 0 after a failed query, the wrapped difference otherwise. -/
def Reading.valid (r : Reading) : Prop :=
  r.total < SIZE_T ∧ r.used < SIZE_T ∧
    r.free_space = if r.err ≠ ESP_OK then 0 else (r.total + SIZE_T - r.used) % SIZE_T

/-- What one turn of the fill loop met: the two timer values, the results of
`fopen` and of the two `fwrite` calls, and the answer of the usage query. -/
structure Iter where
  t : Int
  f : Option Nat
  r1 : Nat
  r2 : Nat
  t2 : Int
  info : esp_err_t × Nat × Nat
  deriving DecidableEq, Repr

/-- The timestamp a turn captured, as the `uint64_t` it is stored in. -/
def Iter.timestamp (it : Iter) : Nat := (it.t % (UINT64 : Int)).toNat

/-- The 12 octet record of a turn. -/
def record (timestamp data : Nat) : List Byte := le_bytes 8 timestamp ++ le_bytes 4 data

/-- Stream calls of one append. -/
def stream_events (data : Nat) (it : Iter) : List Event :=
  match it.f with
  | none => []
  | some f =>
    [Event.fwrite (le_bytes 8 it.timestamp) f it.r1,
     Event.fwrite (le_bytes 4 data) f it.r2, Event.fclose f]

/-- The append-path events of successive turns, the counter starting at `data`. -/
def iter_events (path : CStr) : Nat → List Iter → List Event
  | _, [] => []
  | data, it :: rest =>
    [Event.esp_timer_get_time it.t, Event.enter_write path it.timestamp data,
      Event.fopen path it.f] ++ stream_events data it ++
    [Event.esp_timer_get_time it.t2, reading_event it.info] ++
    iter_events path ((data + 1) % UINT32) rest

/-- Every turn was entered with at least `data_size` octets reported free. -/
def guards : Nat → List Iter → Prop
  | _, [] => True
  | free, it :: rest => data_size ≤ free ∧ guards (free_of it.info) rest

/-- The last reading: that of the last turn, or the one before the loop. -/
def last_free : Nat → List Iter → Nat
  | free, [] => free
  | _, it :: rest => last_free (free_of it.info) rest

/-- The readings the turns were entered on: all but the last one. -/
def entry_readings : Reading → List Iter → List Reading
  | _, [] => []
  | r, it :: rest => r :: entry_readings (reading_of it.info) rest

/-- The reading the loop test saw last. -/
def exit_reading : Reading → List Iter → Reading
  | r, [] => r
  | _, it :: rest => exit_reading (reading_of it.info) rest

/-! ## Step lemmas -/

section Steps

variable {σ α β : Type}

@[simp] theorem pure_apply (a : α) (s : St σ) : (pure a : Prog σ α) s = (Res.ret a, s) := rfl

@[simp] theorem bind_apply (x : Prog σ α) (f : α → Prog σ β) (s : St σ) :
    (x >>= f) s =
      match x s with
      | (Res.ret a, s1) => f a s1
      | (Res.stop e, s1) => (Res.stop e, s1) := rfl

@[simp] theorem halt_apply (e : Stop) (s : St σ) :
    (halt e : Prog σ α) s = (Res.stop e, s) := rfl

@[simp] theorem emit_apply (e : Event) (s : St σ) :
    emit e s = (Res.ret (), ⟨s.world, s.trace ++ [e]⟩) := rfl

@[simp] theorem call_apply (f : σ → α × σ) (ev : α → Event) (s : St σ) :
    call f ev s = (Res.ret (f s.world).1, ⟨(f s.world).2, s.trace ++ [ev (f s.world).1]⟩) := rfl

@[simp] theorem call_void_apply (f : σ → σ) (ev : Event) (s : St σ) :
    call_void f ev s = (Res.ret (), ⟨f s.world, s.trace ++ [ev]⟩) := rfl

theorem is_listing_not_key {e : Event} (h : is_listing e = true) : is_key e = false := by
  cases e <;> simp_all [is_listing, is_key]

theorem filter_key_listing {d : List Event} (h : ∀ e ∈ d, is_listing e = true) :
    d.filter is_key = [] := by
  rw [List.filter_eq_nil_iff]
  intro e he
  simp [is_listing_not_key (h e he)]

theorem Adds.pure {P : Event → Prop} (a : α) : Adds P (pure a : Prog σ α) :=
  fun s => ⟨[], by simp⟩

theorem Adds.halt {P : Event → Prop} (e : Stop) : Adds P (halt e : Prog σ α) :=
  fun s => ⟨[], by simp⟩

theorem Adds.emit {P : Event → Prop} {e : Event} (h : P e) : Adds P (emit e : Prog σ Unit) :=
  fun s => ⟨[e], by simp [h]⟩

theorem Adds.call {P : Event → Prop} {f : σ → α × σ} {ev : α → Event} (h : ∀ a, P (ev a)) :
    Adds P (call f ev) :=
  fun s => ⟨[ev (f s.world).1], by simp [h]⟩

theorem Adds.call_void {P : Event → Prop} {f : σ → σ} {ev : Event} (h : P ev) :
    Adds P (call_void f ev) :=
  fun s => ⟨[ev], by simp [h]⟩

theorem Adds.bind {P : Event → Prop} {x : Prog σ α} {f : α → Prog σ β}
    (hx : Adds P x) (hf : ∀ a, Adds P (f a)) : Adds P (x >>= f) := by
  intro s
  obtain ⟨d, hd, hall⟩ := hx s
  rw [bind_apply]
  generalize x s = r at hd
  obtain ⟨res, s1⟩ := r
  cases res with
  | stop e => exact ⟨d, hd, hall⟩
  | ret a =>
    obtain ⟨d2, hd2, hall2⟩ := hf a s1
    refine ⟨d ++ d2, ?_, ?_⟩
    · simp only at hd
      simp only [hd2, hd, List.append_assoc]
    · intro e he
      rcases List.mem_append.1 he with h | h
      · exact hall e h
      · exact hall2 e h

theorem Adds.mono {P Q : Event → Prop} {p : Prog σ α} (hp : Adds P p)
    (h : ∀ e, P e → Q e) : Adds Q p := by
  intro s
  obtain ⟨d, hd, hall⟩ := hp s
  exact ⟨d, hd, fun e he => h e (hall e he)⟩

/-- The listing loop only adds directory calls and output lines. -/
theorem list_files_loop_adds (w : World σ) (dir : Nat) :
    ∀ (fuel : Nat) (st : Option Nat),
      Adds (fun e => is_listing e = true) (list_files_loop w dir fuel st) := by
  intro fuel
  induction fuel with
  | zero => intro st; exact Adds.halt _
  | succ n ih =>
    intro st
    rw [list_files_loop]
    refine Adds.bind (Adds.call fun _ => rfl) fun entry => ?_
    cases entry with
    | none => exact Adds.pure _
    | some name =>
      refine Adds.bind (Adds.call fun _ => rfl) fun r => ?_
      exact Adds.bind (Adds.emit rfl) fun _ => ih _

/-- A listing only adds directory calls and output lines. -/
theorem list_files_adds (w : World σ) (fuel : Nat) :
    Adds (fun e => is_listing e = true) (list_files_in_extflash w fuel) := by
  rw [list_files_in_extflash]
  refine Adds.bind (Adds.call fun _ => rfl) fun dir => ?_
  cases dir with
  | none => exact Adds.halt _
  | some d =>
    refine Adds.bind (list_files_loop_adds w d fuel none) fun _ => ?_
    refine Adds.bind (Adds.call_void rfl) fun _ => ?_
    refine Adds.bind (Adds.call fun _ => rfl) fun r => ?_
    show Adds _ (if r.1 ≠ ESP_OK then _ else _)
    split
    · exact Adds.emit rfl
    · exact Adds.emit rfl

/-- What `get_littlefs_free_space` returns and adds to the trace. -/
theorem get_littlefs_free_space_apply (w : World σ) (s : St σ) :
    get_littlefs_free_space w s =
      (Res.ret (free_of (w.esp_littlefs_partition_info s.world).1),
        ⟨(w.esp_littlefs_partition_info s.world).2,
          s.trace ++
            (Event.esp_littlefs_partition_info (w.esp_littlefs_partition_info s.world).1.1
                (w.esp_littlefs_partition_info s.world).1.2.1
                (w.esp_littlefs_partition_info s.world).1.2.2 ::
              (if (w.esp_littlefs_partition_info s.world).1.1 ≠ ESP_OK then
                [Event.log Level.error "Failed to get LittleFS info"] else [])) ++
            [reading_event (w.esp_littlefs_partition_info s.world).1]⟩) := by
  simp only [get_littlefs_free_space, bind_apply, call_apply]
  by_cases h : (w.esp_littlefs_partition_info s.world).1.1 = ESP_OK
  · simp [h, free_of, reading_event]
  · simp [h, free_of, reading_event]

/-- What `write_timestamp_and_data_to_file` does: it always returns, and
calls `fwrite` twice exactly when `fopen` gave a stream. -/
theorem write_timestamp_apply (w : World σ) (path : CStr) (ts data : Nat) (s : St σ) :
    ∃ (f : Option Nat) (r1 r2 : Nat) (w1 : σ) (d : List Event),
      write_timestamp_and_data_to_file w path ts data s = (Res.ret (), ⟨w1, s.trace ++ d⟩) ∧
      f = (w.fopen path s.world).1 ∧
      d.filter is_key =
        [Event.enter_write path ts data, Event.fopen path f] ++
          (match f with
            | none => []
            | some h => [Event.fwrite (le_bytes 8 ts) h r1, Event.fwrite (le_bytes 4 data) h r2,
                Event.fclose h]) := by
  simp only [write_timestamp_and_data_to_file, bind_apply, emit_apply, call_apply]
  cases hf : (w.fopen path s.world).1 with
  | none =>
    exact ⟨none, 0, 0, (w.fopen path s.world).2,
      [Event.enter_write path ts data, Event.fopen path none,
        Event.log Level.error "Failed to open file for writing"],
      by simp, rfl, by simp [is_key]⟩
  | some h =>
    exact ⟨some h, (w.fwrite (le_bytes 8 ts) h (w.fopen path s.world).2).1,
      (w.fwrite (le_bytes 4 data) h (w.fwrite (le_bytes 8 ts) h (w.fopen path s.world).2).2).1,
      w.fclose h
        (w.fwrite (le_bytes 4 data) h (w.fwrite (le_bytes 8 ts) h (w.fopen path s.world).2).2).2,
      [Event.enter_write path ts data, Event.fopen path (some h),
        Event.fwrite (le_bytes 8 ts) h (w.fwrite (le_bytes 8 ts) h (w.fopen path s.world).2).1,
        Event.fwrite (le_bytes 4 data) h
          (w.fwrite (le_bytes 4 data) h
            (w.fwrite (le_bytes 8 ts) h (w.fopen path s.world).2).2).1,
        Event.fclose h],
      by simp, rfl, by simp [is_key]⟩

/-- Unrolling of the fill loop: the turns it ran, each entered with enough
space reported, and when it returns. -/
theorem fill_loop_spec (w : World σ) (path : CStr) :
    ∀ (fuel data free : Nat) (s : St σ),
      ∃ (its : List Iter) (d : List Event),
        (fill_loop w path fuel data free s).2.trace = s.trace ++ d ∧
        d.filter is_key = iter_events path data its ∧
        guards free its ∧
        ((fill_loop w path fuel data free s).1 = Res.ret () →
          last_free free its < data_size) ∧
        (last_free free its < data_size →
          (its = [] ∨ (data + its.length) % UINT32 % 1000 ≠ 0) →
          (fill_loop w path fuel data free s).1 = Res.ret ()) := by
  intro fuel
  induction fuel with
  | zero =>
    intro data free s
    refine ⟨[], [], ?_⟩
    by_cases h : free ≥ data_size
    · simp [fill_loop, h, iter_events, guards, last_free]
    · simp [fill_loop, h, iter_events, guards, last_free]
      omega
  | succ n ih =>
    intro data free s
    by_cases h : free ≥ data_size
    · rw [fill_loop, if_pos h]
      simp only [bind_apply, call_apply]
      obtain ⟨f, r1, r2, w1, dw, hw, hf, hkey⟩ := write_timestamp_apply w path
        ((w.esp_timer_get_time s.world).1 % (UINT64 : Int)).toNat data
        ⟨(w.esp_timer_get_time s.world).2,
          s.trace ++ [Event.esp_timer_get_time (w.esp_timer_get_time s.world).1]⟩
      simp only [hw, emit_apply, get_littlefs_free_space_apply]
      generalize hs2 : St.mk (w.esp_littlefs_partition_info (w.esp_timer_get_time w1).2).2 _ = s2
      have htr := congrArg St.trace hs2
      simp only at htr
      clear hs2
      generalize (w.esp_littlefs_partition_info (w.esp_timer_get_time w1).2).1 = info at htr ⊢
      generalize (w.esp_timer_get_time w1).1 = t2 at htr
      generalize (w.esp_timer_get_time s.world).1 = t at htr hkey
      clear hw hf
      have hit : iter_events path data [⟨t, f, r1, r2, t2, info⟩] =
          Event.esp_timer_get_time t :: (dw.filter is_key ++
            [Event.esp_timer_get_time t2, reading_event info]) := by
        rw [hkey]
        cases f <;> simp [iter_events, stream_events, Iter.timestamp]
      obtain ⟨d2, hd2, hk2⟩ : ∃ d2, s2.trace = s.trace ++ d2 ∧
          d2.filter is_key = iter_events path data [⟨t, f, r1, r2, t2, info⟩] := by
        refine ⟨[Event.esp_timer_get_time t] ++ dw ++ [Event.esp_timer_get_time t2] ++
            [Event.printf (Line.time_taken
              (((t2 % (UINT64 : Int)).toNat + UINT64 - (t % (UINT64 : Int)).toNat) % UINT64))] ++
            (Event.esp_littlefs_partition_info info.1 info.2.1 info.2.2 ::
              if info.1 ≠ ESP_OK then [Event.log Level.error "Failed to get LittleFS info"]
              else []) ++
            [reading_event info] ++ [Event.printf (Line.free_space data (free_of info))], ?_, ?_⟩
        · rw [← htr]
          simp only [List.append_assoc]
        · rw [hit]
          by_cases he : info.1 = ESP_OK <;>
            simp [List.filter_append, List.filter_cons, is_key, reading_event, he]
      clear htr hit hkey
      have hcons : ∀ its1 : List Iter, iter_events path data (⟨t, f, r1, r2, t2, info⟩ :: its1) =
          iter_events path data [⟨t, f, r1, r2, t2, info⟩] ++
            iter_events path ((data + 1) % UINT32) its1 := by
        intro its1
        simp [iter_events]
      have hmod : ∀ k : Nat, (data + (k + 1)) % UINT32 = ((data + 1) % UINT32 + k) % UINT32 := by
        intro k
        simp only [UINT32]
        omega
      by_cases hb : (data + 1) % UINT32 % 1000 = 0
      · rw [if_pos hb, bind_apply]
        obtain ⟨dl, hdl, hall⟩ := list_files_adds w n s2
        generalize list_files_in_extflash w n s2 = rl at hdl ⊢
        obtain ⟨res, s3⟩ := rl
        simp only at hdl
        cases res with
        | stop e =>
          refine ⟨[⟨t, f, r1, r2, t2, info⟩], d2 ++ dl, ?_, ?_, ?_, ?_, ?_⟩
          · simp only [hdl, hd2, List.append_assoc]
          · rw [List.filter_append, filter_key_listing hall, hk2, List.append_nil]
          · exact ⟨h, trivial⟩
          · intro hc; cases hc
          · intro _ hc
            rcases hc with hc | hc
            · cases hc
            · exact absurd hb hc
        | ret u =>
          obtain ⟨its1, d3, h1, h2, h3, h4, h5⟩ :=
            ih ((data + 1) % UINT32) (free_of info) s3
          refine ⟨⟨t, f, r1, r2, t2, info⟩ :: its1, d2 ++ dl ++ d3, ?_, ?_, ?_, ?_, ?_⟩
          · simp only [h1, hdl, hd2, List.append_assoc]
          · rw [hcons its1, List.filter_append, List.filter_append, filter_key_listing hall,
              hk2, List.append_nil, h2]
          · exact ⟨h, h3⟩
          · exact h4
          · intro hl hc
            refine h5 hl ?_
            rcases hc with hc | hc
            · cases hc
            · cases its1 with
              | nil => exact Or.inl rfl
              | cons a l =>
                right
                rw [← hmod]
                exact hc
      · rw [if_neg hb, bind_apply, pure_apply]
        obtain ⟨its1, d3, h1, h2, h3, h4, h5⟩ :=
          ih ((data + 1) % UINT32) (free_of info) s2
        refine ⟨⟨t, f, r1, r2, t2, info⟩ :: its1, d2 ++ d3, ?_, ?_, ?_, ?_, ?_⟩
        · simp only [h1, hd2, List.append_assoc]
        · rw [hcons its1, List.filter_append, hk2, h2]
        · exact ⟨h, h3⟩
        · exact h4
        · intro hl hc
          refine h5 hl ?_
          rcases hc with hc | hc
          · cases hc
          · cases its1 with
            | nil => exact Or.inl rfl
            | cons a l =>
              right
              rw [← hmod]
              exact hc
    · refine ⟨[], [], ?_⟩
      simp [fill_loop, h, iter_events, guards, last_free]
      omega

/-- What a run of `fill_flash_with_data` leaves on the append path. -/
theorem fill_flash_spec (w : World σ) (path : CStr) (fuel : Nat) (s0 : σ) :
    ∃ its : List Iter,
      (((fill_flash_with_data w path fuel).run s0).2.trace).filter is_key =
        reading_event (w.esp_littlefs_partition_info s0).1 :: iter_events path 0 its ∧
      guards (free_of (w.esp_littlefs_partition_info s0).1) its ∧
      (((fill_flash_with_data w path fuel).run s0).1 = Res.ret () →
        last_free (free_of (w.esp_littlefs_partition_info s0).1) its < data_size) ∧
      (last_free (free_of (w.esp_littlefs_partition_info s0).1) its < data_size →
        (its = [] ∨ its.length % UINT32 % 1000 ≠ 0) →
        ((fill_flash_with_data w path fuel).run s0).1 = Res.ret ()) := by
  simp only [Prog.run, fill_flash_with_data, bind_apply, get_littlefs_free_space_apply]
  generalize hs1 : St.mk (w.esp_littlefs_partition_info s0).2 _ = s1
  have htr := congrArg St.trace hs1
  simp only at htr
  generalize (w.esp_littlefs_partition_info s0).1 = info at htr ⊢
  obtain ⟨its, d, h1, h2, h3, h4, h5⟩ := fill_loop_spec w path fuel 0 (free_of info) s1
  have hk1 : s1.trace.filter is_key = [reading_event info] := by
    rw [← htr]
    by_cases he : info.1 = ESP_OK <;> simp [List.filter_cons, is_key, reading_event, he]
  generalize fill_loop w path fuel 0 (free_of info) s1 = r at h1 h4 h5 ⊢
  obtain ⟨res, s2⟩ := r
  simp only at h1 h4 h5
  refine ⟨its, ?_, h3, ?_, ?_⟩
  · cases res with
    | stop e => simp [h1, hk1, h2]
    | ret u => simp [h1, hk1, h2, is_key]
  · cases res with
    | stop e => intro hc; simp at hc
    | ret u => intro _; exact h4 rfl
  · intro hl hc
    have := h5 hl (by simpa using hc)
    subst this
    rfl

theorem marks_filter_key (l : List Event) : marks (l.filter is_key) = marks l := by
  induction l with
  | nil => rfl
  | cons e l ih =>
    cases e <;> simp_all [marks, List.filter_cons, is_key, mark_of]

theorem marks_reading_event (info : esp_err_t × Nat × Nat) (l : List Event) :
    marks (reading_event info :: l) = Mark.reading (reading_of info) :: marks l := by
  simp [marks, reading_event, reading_of, mark_of]

theorem marks_iter_events (path : CStr) :
    ∀ (its : List Iter) (data : Nat) (r : Reading),
      Mark.reading r :: marks (iter_events path data its) =
        appends_after (entry_readings r its) ++ [Mark.reading (exit_reading r its)] := by
  intro its
  induction its with
  | nil => intro data r; simp [iter_events, marks, appends_after, entry_readings, exit_reading]
  | cons it rest ih =>
    intro data r
    have h := ih ((data + 1) % UINT32) (reading_of it.info)
    have hs : marks (stream_events data it) = [] := by
      cases hf : it.f <;> simp [stream_events, hf, marks, mark_of]
    simp only [iter_events, entry_readings, exit_reading, appends_after, List.flatMap_cons]
    simp only [appends_after] at h
    rw [List.append_assoc [Mark.reading r, Mark.append], ← h]
    simp only [marks, List.filterMap_append] at hs ⊢
    simp [hs, mark_of, reading_event, reading_of]

theorem reading_of_valid (info : esp_err_t × Nat × Nat) : (reading_of info).valid := by
  refine ⟨Nat.mod_lt _ (by decide), Nat.mod_lt _ (by decide), ?_⟩
  simp [reading_of, free_of]

theorem entry_readings_length (r : Reading) (its : List Iter) :
    (entry_readings r its).length = its.length := by
  induction its generalizing r with
  | nil => rfl
  | cons it rest ih => simp [entry_readings, ih]

theorem entry_readings_valid (r : Reading) (its : List Iter) (hr : r.valid) :
    (∀ q ∈ entry_readings r its, q.valid) ∧ (exit_reading r its).valid := by
  induction its generalizing r with
  | nil => simp [entry_readings, exit_reading, hr]
  | cons it rest ih =>
    have h := ih (reading_of it.info) (reading_of_valid _)
    simp only [entry_readings, exit_reading, List.mem_cons]
    refine ⟨?_, h.2⟩
    rintro q (rfl | hq)
    · exact hr
    · exact h.1 q hq

theorem entry_readings_guards (info : esp_err_t × Nat × Nat) (its : List Iter)
    (hg : guards (free_of info) its) :
    (∀ q ∈ entry_readings (reading_of info) its, data_size ≤ q.free_space) ∧
      (exit_reading (reading_of info) its).free_space = last_free (free_of info) its := by
  induction its generalizing info with
  | nil => simp [entry_readings, exit_reading, last_free, reading_of]
  | cons it rest ih =>
    have h := ih it.info hg.2
    simp only [entry_readings, exit_reading, last_free, List.mem_cons]
    refine ⟨?_, h.2⟩
    rintro q (rfl | hq)
    · exact hg.1
    · exact h.1 q hq

/-- The readings and appends of a run of `fill_flash_with_data`: each turn
was entered on a valid reading of at least `data_size`, and the run returns
on the first reading below it. -/
theorem fill_marks (w : World σ) (path : CStr) (fuel : Nat) (s0 : σ) :
    ∃ (rs : List Reading) (last : Reading),
      marks ((fill_flash_with_data w path fuel).run s0).2.trace =
        appends_after rs ++ [Mark.reading last] ∧
      (rs ++ [last]).head? = some (reading_of (w.esp_littlefs_partition_info s0).1) ∧
      (∀ r ∈ rs, r.valid ∧ data_size ≤ r.free_space) ∧
      last.valid ∧
      (((fill_flash_with_data w path fuel).run s0).1 = Res.ret () →
        last.free_space < data_size) ∧
      (last.free_space < data_size → (rs = [] ∨ rs.length % UINT32 % 1000 ≠ 0) →
        ((fill_flash_with_data w path fuel).run s0).1 = Res.ret ()) := by
  obtain ⟨its, hk, hg, hret, hexit⟩ := fill_flash_spec w path fuel s0
  have hv := entry_readings_valid (reading_of (w.esp_littlefs_partition_info s0).1) its
    (reading_of_valid _)
  have hgs := entry_readings_guards (w.esp_littlefs_partition_info s0).1 its hg
  refine ⟨entry_readings (reading_of (w.esp_littlefs_partition_info s0).1) its,
    exit_reading (reading_of (w.esp_littlefs_partition_info s0).1) its, ?_, ?_, ?_, hv.2, ?_, ?_⟩
  · rw [← marks_filter_key, hk, marks_reading_event, marks_iter_events]
  · cases its <;> simp [entry_readings, exit_reading]
  · exact fun r hr => ⟨hv.1 r hr, hgs.1 r hr⟩
  · rw [hgs.2]; exact hret
  · rw [hgs.2, entry_readings_length]
    intro hl hc
    refine hexit hl ?_
    rcases hc with hc | hc
    · left
      cases its with
      | nil => rfl
      | cons a l => simp [entry_readings] at hc
    · exact Or.inr hc

end Steps

/-! ## The fill loop and the free-space helper -/

section Fill

variable {σ : Type}

theorem filterMap_appends_after (rs : List Reading) :
    (appends_after rs).filterMap Mark.reading? = rs := by
  induction rs with
  | nil => rfl
  | cons r rs ih =>
    simp only [appends_after, List.flatMap_cons, List.filterMap_append] at ih ⊢
    simp [Mark.reading?, ih]

theorem readings_appends_after (rs : List Reading) (last : Reading) (tr : List Event)
    (h : marks tr = appends_after rs ++ [Mark.reading last]) : readings tr = rs ++ [last] := by
  rw [readings, h, List.filterMap_append, filterMap_appends_after]
  rfl

theorem valid_enough_ok {r : Reading} (hv : r.valid) (hg : data_size ≤ r.free_space) :
    r.err = ESP_OK ∧ (r.used ≤ r.total → r.free_space = r.total - r.used) := by
  obtain ⟨ht, hu, hf⟩ := hv
  by_cases he : r.err = ESP_OK
  · refine ⟨he, fun hle => ?_⟩
    rw [hf]
    simp only [he, ne_eq, not_true_eq_false, if_false, SIZE_T] at ht hu ⊢
    omega
  · rw [hf] at hg
    simp [he, data_size] at hg

/-- C1: in `fill_flash_with_data`, over any mocked platform, the readings
and appends of a run alternate: every call of
`write_timestamp_and_data_to_file` comes right after a free-space reading of
at least 12, with no other reading or append in between, and a reading below
12 is the last mark of the run, so nothing is appended after it.  The run
returns only on a reading below 12, and it does return on the first such
reading (when the turn count is a multiple of 1000 the listing called before
the loop test has to return first). -/
theorem fill_appends_only_after_enough_space (w : World σ) (path : CStr) (fuel : Nat)
    (s0 : σ) :
    ∃ (rs : List Reading) (last : Reading),
      marks ((fill_flash_with_data w path fuel).run s0).2.trace =
        appends_after rs ++ [Mark.reading last] ∧
      (∀ r ∈ rs, 12 ≤ r.free_space) ∧
      (((fill_flash_with_data w path fuel).run s0).1 = Res.ret () → last.free_space < 12) ∧
      (last.free_space < 12 → (rs = [] ∨ rs.length % UINT32 % 1000 ≠ 0) →
        ((fill_flash_with_data w path fuel).run s0).1 = Res.ret ()) := by
  obtain ⟨rs, last, hm, _, hrs, _, hret, hexit⟩ := fill_marks w path fuel s0
  exact ⟨rs, last, hm, fun r hr => (hrs r hr).2, hret, hexit⟩

theorem filter_append_path_key (l : List Event) :
    (l.filter is_key).filter is_append_path = l.filter is_append_path := by
  induction l with
  | nil => rfl
  | cons e l ih => cases e <;> simp_all [List.filter_cons, is_key, is_append_path]

theorem appended_filter_key (l : List Event) : appended (l.filter is_key) = appended l := by
  induction l with
  | nil => rfl
  | cons e l ih => cases e <;> simp_all [appended, List.filter_cons, is_key, stored]

theorem le_bytes_length (n v : Nat) : (le_bytes n v).length = n := by
  induction n generalizing v with
  | zero => rfl
  | succ n ih => simp [le_bytes, ih]

theorem records_from_length (k : Nat) (ts : List Int) :
    (records_from k ts).length = 12 * ts.length := by
  induction ts generalizing k with
  | nil => rfl
  | cons t rest ih =>
    simp only [records_from, List.length_append, le_bytes_length, ih, List.length_cons]
    omega

/-- The turns of the loop, when every append went through, are turns in the
sense of `turn_events`, and what they stored are the records numbered from
the counter. -/
theorem iter_events_records (path : CStr) :
    ∀ (its : List Iter) (k data : Nat), data = k % UINT32 →
      (∀ p f, Event.fopen p f ∈ iter_events path data its → f ≠ none) →
      (∀ b f r, Event.fwrite b f r ∈ iter_events path data its → r = 1) →
      ∃ ts : List Turn, ts.length = its.length ∧
        (iter_events path data its).filter is_append_path = turn_events path k ts ∧
        appended (iter_events path data its) = records_from k (ts.map Turn.t) := by
  intro its
  induction its with
  | nil => intro k data _ _ _; exact ⟨[], rfl, rfl, rfl⟩
  | cons it rest ih =>
    intro k data hdata hopen hwrite
    have hnext : (data + 1) % UINT32 = (k + 1) % UINT32 := by
      simp only [UINT32] at hdata ⊢
      omega
    obtain ⟨ts, hlen, hev, hap⟩ := ih (k + 1) ((data + 1) % UINT32) hnext
      (fun p f hm => hopen p f (by simp only [iter_events]; exact List.mem_append_right _ hm))
      (fun b f r hm => hwrite b f r (by simp only [iter_events]; exact List.mem_append_right _ hm))
    have hf : it.f ≠ none := hopen path it.f (by simp [iter_events])
    obtain ⟨h, hh⟩ := Option.ne_none_iff_exists.1 hf
    have h1 : it.r1 = 1 := hwrite (le_bytes 8 it.timestamp) h it.r1
      (by simp [iter_events, stream_events, ← hh])
    have h2 : it.r2 = 1 := hwrite (le_bytes 4 data) h it.r2
      (by simp [iter_events, stream_events, ← hh])
    refine ⟨⟨it.t, h, it.t2⟩ :: ts, by simp [hlen], ?_, ?_⟩
    · simp only [iter_events, List.filter_append, hev, turn_events]
      simp [stream_events, ← hh, List.filter_cons, is_append_path, reading_event,
        Iter.timestamp, stamp, hdata, h1, h2]
    · simp only [iter_events, appended, List.flatMap_append, List.map_cons, records_from]
      simp only [appended] at hap
      rw [hap]
      simp [stream_events, ← hh, stored, reading_event, h1, h2, Iter.timestamp, stamp, hdata]

/-- C5: in a run of `fill_flash_with_data` in which every append succeeds
(each `fopen` gives a stream, each `fwrite` reports its item written), the
timer, append and stream calls of the run are those of turns 0, 1, ...: turn
`k` reads the timer, calls the append helper with that timestamp and the
counter `k mod 2^32`, opens the target path, writes to the stream it got the
8 octets of the timestamp and then the 4 octets of the counter, and closes
it.  The octets stored are these 12 octet records one after the other,
nothing in between.  There is one turn for each free-space reading but the
first, and when the run returns, one turn (one record) for each reading of
at least 12. -/
theorem fill_writes_records (w : World σ) (path : CStr) (fuel : Nat) (s0 : σ)
    (hopen : ∀ p f, Event.fopen p f ∈ ((fill_flash_with_data w path fuel).run s0).2.trace →
      f ≠ none)
    (hwrite : ∀ b f r,
      Event.fwrite b f r ∈ ((fill_flash_with_data w path fuel).run s0).2.trace → r = 1) :
    ∃ ts : List Turn,
      (((fill_flash_with_data w path fuel).run s0).2.trace).filter is_append_path =
        turn_events path 0 ts ∧
      appended ((fill_flash_with_data w path fuel).run s0).2.trace =
        records_from 0 (ts.map Turn.t) ∧
      (appended ((fill_flash_with_data w path fuel).run s0).2.trace).length =
        12 * ts.length ∧
      (readings ((fill_flash_with_data w path fuel).run s0).2.trace).length =
        ts.length + 1 ∧
      (((fill_flash_with_data w path fuel).run s0).1 = Res.ret () →
        ts.length =
          ((readings ((fill_flash_with_data w path fuel).run s0).2.trace).filter
            (fun r => decide (12 ≤ r.free_space))).length) := by
  obtain ⟨its, hk, hg, hret, _⟩ := fill_flash_spec w path fuel s0
  have hsub : ∀ e, e ∈ iter_events path 0 its →
      e ∈ ((fill_flash_with_data w path fuel).run s0).2.trace := by
    intro e he
    have : e ∈ (((fill_flash_with_data w path fuel).run s0).2.trace).filter is_key := by
      rw [hk]
      exact List.mem_cons_of_mem _ he
    exact (List.mem_filter.1 this).1
  obtain ⟨ts, hlen, h1, h2⟩ := iter_events_records path its 0 0 rfl
    (fun p f hm => hopen p f (hsub _ hm)) (fun b f r hm => hwrite b f r (hsub _ hm))
  have hst : (((fill_flash_with_data w path fuel).run s0).2.trace).filter is_append_path =
      turn_events path 0 ts := by
    rw [← filter_append_path_key, hk, List.filter_cons]
    simp only [reading_event, is_append_path]
    exact h1
  have hap : appended ((fill_flash_with_data w path fuel).run s0).2.trace =
      records_from 0 (ts.map Turn.t) := by
    rw [← appended_filter_key, hk]
    simp only [appended, List.flatMap_cons, reading_event, stored, List.nil_append]
    exact h2
  have hm : marks ((fill_flash_with_data w path fuel).run s0).2.trace =
      appends_after (entry_readings (reading_of (w.esp_littlefs_partition_info s0).1) its) ++
        [Mark.reading (exit_reading (reading_of (w.esp_littlefs_partition_info s0).1) its)] := by
    rw [← marks_filter_key, hk, marks_reading_event, marks_iter_events]
  have hr := readings_appends_after _ _ _ hm
  have hgs := entry_readings_guards (w.esp_littlefs_partition_info s0).1 its hg
  refine ⟨ts, hst, hap, ?_, ?_, ?_⟩
  · rw [hap, records_from_length, List.length_map]
  · rw [hr, List.length_append, entry_readings_length, hlen]
    rfl
  · intro hres
    have hlast := hret hres
    rw [← hgs.2] at hlast
    rw [hr, List.filter_append, List.length_append]
    have h1 : (entry_readings (reading_of (w.esp_littlefs_partition_info s0).1) its).filter
        (fun r => decide (12 ≤ r.free_space)) =
        entry_readings (reading_of (w.esp_littlefs_partition_info s0).1) its := by
      rw [List.filter_eq_self]
      intro r hr
      have := hgs.1 r hr
      simpa [data_size] using this
    have h2 : [exit_reading (reading_of (w.esp_littlefs_partition_info s0).1) its].filter
        (fun r => decide (12 ≤ r.free_space)) = [] := by
      simp only [data_size] at hlast
      simp [List.filter_cons]
      omega
    rw [h1, h2, entry_readings_length, hlen]
    rfl

/-- C5 on a run over an empty medium of 30 octets: two turns, and the file
holds the two records, timestamps 0 and 2, counters 0 and 1. -/
theorem fill_writes_records_witness :
    (∃ ts : List Turn,
      (((fill_flash_with_data memfs (sprintf_path ['t']) 5).run
        (MemFS.empty 30)).2.trace).filter is_append_path =
          turn_events (sprintf_path ['t']) 0 ts ∧
      appended ((fill_flash_with_data memfs (sprintf_path ['t']) 5).run
        (MemFS.empty 30)).2.trace = records_from 0 (ts.map Turn.t) ∧
      (appended ((fill_flash_with_data memfs (sprintf_path ['t']) 5).run
        (MemFS.empty 30)).2.trace).length = 12 * ts.length ∧
      (readings ((fill_flash_with_data memfs (sprintf_path ['t']) 5).run
        (MemFS.empty 30)).2.trace).length = ts.length + 1 ∧
      (((fill_flash_with_data memfs (sprintf_path ['t']) 5).run (MemFS.empty 30)).1 =
          Res.ret () →
        ts.length =
          ((readings ((fill_flash_with_data memfs (sprintf_path ['t']) 5).run
            (MemFS.empty 30)).2.trace).filter
            (fun r => decide (12 ≤ r.free_space))).length)) ∧
    ((fill_flash_with_data memfs (sprintf_path ['t']) 5).run (MemFS.empty 30)).1 =
      Res.ret () ∧
    (((fill_flash_with_data memfs (sprintf_path ['t']) 5).run
        (MemFS.empty 30)).2.trace).filter is_append_path =
      turn_events (sprintf_path ['t']) 0 [⟨0, 1, 1⟩, ⟨2, 1, 3⟩] ∧
    appended ((fill_flash_with_data memfs (sprintf_path ['t']) 5).run
        (MemFS.empty 30)).2.trace =
      [0, 0, 0, 0, 0, 0, 0, 0, 0, 0, 0, 0, 2, 0, 0, 0, 0, 0, 0, 0, 1, 0, 0, 0] ∧
    file_bytes ['t'] ((fill_flash_with_data memfs (sprintf_path ['t']) 5).run
        (MemFS.empty 30)).2.world.entries =
      [0, 0, 0, 0, 0, 0, 0, 0, 0, 0, 0, 0, 2, 0, 0, 0, 0, 0, 0, 0, 1, 0, 0, 0] :=
  ⟨fill_writes_records memfs (sprintf_path ['t']) 5 (MemFS.empty 30)
    (by
      intro p f hm hf
      have h : (((fill_flash_with_data memfs (sprintf_path ['t']) 5).run
          (MemFS.empty 30)).2.trace).all opened = true := by decide!
      have h1 := List.all_eq_true.1 h _ hm
      rw [hf] at h1
      simp [opened] at h1)
    (by
      intro b f r hm
      have h : (((fill_flash_with_data memfs (sprintf_path ['t']) 5).run
          (MemFS.empty 30)).2.trace).all wrote_item = true := by decide!
      have h1 := List.all_eq_true.1 h _ hm
      simpa [wrote_item] using h1),
    by decide!, by decide!, by decide!, by decide!⟩

/-- C6: after a successful usage query giving `total` and `used`,
`get_littlefs_free_space` returns their difference as a `size_t`: the
difference modulo 2^32, which is `total - used` when `used ≤ total` and
`total + 2^32 - used` otherwise. -/
theorem free_space_is_total_minus_used (w : World σ) (s0 : σ) (total used : Nat)
    (hq : (w.esp_littlefs_partition_info s0).1 = (ESP_OK, total, used))
    (ht : total < SIZE_T) (hu : used < SIZE_T) :
    ∃ v : Nat, ((get_littlefs_free_space w).run s0).1 = Res.ret v ∧
      (v : Int) = ((total : Int) - (used : Int)) % (SIZE_T : Int) ∧
      (used ≤ total → v = total - used) ∧
      (total < used → v = total + SIZE_T - used) := by
  refine ⟨free_of (ESP_OK, total, used), ?_, ?_, ?_, ?_⟩
  · rw [Prog.run, get_littlefs_free_space_apply, hq]
  all_goals
    simp only [free_of, ne_eq, not_true_eq_false, if_false, SIZE_T] at ht hu ⊢
    omega

/-- C6 at a query that reports 30 of 100 octets used. -/
theorem free_space_is_total_minus_used_witness :
    ∃ v : Nat, ((get_littlefs_free_space (scripted true)).run
        { Script.good with infos := [(0, 100, 30)] }).1 = Res.ret v ∧
      (v : Int) = ((100 : Int) - (30 : Int)) % (SIZE_T : Int) ∧
      (30 ≤ 100 → v = 100 - 30) ∧ (100 < 30 → v = 100 + SIZE_T - 30) :=
  free_space_is_total_minus_used (scripted true) { Script.good with infos := [(0, 100, 30)] }
    100 30 rfl (by decide) (by decide)

/-- C10: when its usage query fails, `get_littlefs_free_space` returns 0
whatever the query left in the output arguments.  If the first query of
`fill_flash_with_data` fails, the run returns after the query alone: no
append is made.  In every run a failed query is behind the last reading
only: it reads 0, no append or reading follows it, and the run returns
(when the turn count is a multiple of 1000, once the listing of that turn
has returned). -/
theorem failed_usage_query_ends_fill (w : World σ) (path : CStr) (fuel : Nat) (s0 : σ) :
    ((w.esp_littlefs_partition_info s0).1.1 ≠ ESP_OK →
      ((get_littlefs_free_space w).run s0).1 = Res.ret 0 ∧
      ((fill_flash_with_data w path fuel).run s0).1 = Res.ret () ∧
      ((fill_flash_with_data w path fuel).run s0).2.trace =
        [Event.esp_littlefs_partition_info (w.esp_littlefs_partition_info s0).1.1
            (w.esp_littlefs_partition_info s0).1.2.1 (w.esp_littlefs_partition_info s0).1.2.2,
          Event.log Level.error "Failed to get LittleFS info",
          Event.ret_free_space (w.esp_littlefs_partition_info s0).1.1
            ((w.esp_littlefs_partition_info s0).1.2.1 % SIZE_T)
            ((w.esp_littlefs_partition_info s0).1.2.2 % SIZE_T) 0,
          Event.log Level.info "Flash is full. No more space to write data."]) ∧
    (∃ (rs : List Reading) (last : Reading),
      marks ((fill_flash_with_data w path fuel).run s0).2.trace =
        appends_after rs ++ [Mark.reading last] ∧
      (∀ r ∈ rs, r.err = ESP_OK) ∧
      (last.err ≠ ESP_OK → last.free_space = 0 ∧
        ((rs = [] ∨ rs.length % UINT32 % 1000 ≠ 0) →
          ((fill_flash_with_data w path fuel).run s0).1 = Res.ret ()))) := by
  constructor
  · intro hfail
    have hfree : free_of (w.esp_littlefs_partition_info s0).1 = 0 := by simp [free_of, hfail]
    refine ⟨?_, ?_, ?_⟩
    · rw [Prog.run, get_littlefs_free_space_apply, hfree]
    · simp only [Prog.run, fill_flash_with_data, bind_apply, get_littlefs_free_space_apply,
        hfree]
      cases fuel <;> simp [fill_loop, data_size]
    · simp only [Prog.run, fill_flash_with_data, bind_apply, get_littlefs_free_space_apply,
        hfree]
      cases fuel <;> simp [fill_loop, data_size, hfail, reading_event, hfree]
  · obtain ⟨rs, last, hm, _, hrs, hlast, _, hexit⟩ := fill_marks w path fuel s0
    refine ⟨rs, last, hm, fun r hr => (valid_enough_ok (hrs r hr).1 (hrs r hr).2).1, ?_⟩
    intro he
    have h0 : last.free_space = 0 := by
      rw [hlast.2.2]
      simp [he]
    refine ⟨h0, fun hc => hexit ?_ hc⟩
    rw [h0]
    decide

/-- C10 on a script whose first usage query fails with 77 and 13 left in the
output arguments. -/
theorem failed_usage_query_ends_fill_witness :
    ((get_littlefs_free_space (scripted true)).run
        { Script.good with infos := [(-1, 77, 13)] }).1 = Res.ret 0 ∧
      ((fill_flash_with_data (scripted true) (sprintf_path ['t']) 5).run
        { Script.good with infos := [(-1, 77, 13)] }).1 = Res.ret () ∧
      ((fill_flash_with_data (scripted true) (sprintf_path ['t']) 5).run
        { Script.good with infos := [(-1, 77, 13)] }).2.trace =
        [Event.esp_littlefs_partition_info (-1) 77 13,
          Event.log Level.error "Failed to get LittleFS info",
          Event.ret_free_space (-1) (77 % SIZE_T) (13 % SIZE_T) 0,
          Event.log Level.info "Flash is full. No more space to write data."] :=
  (failed_usage_query_ends_fill (scripted true) (sprintf_path ['t']) 5
    { Script.good with infos := [(-1, 77, 13)] }).1 (by decide)

end Fill

/-! ## Start-up and mount -/

section Startup

variable {σ : Type}

theorem Adds.check {P : Event → Prop} (w : World σ) (err : esp_err_t) :
    Adds P (ESP_ERROR_CHECK w err) := by
  rw [ESP_ERROR_CHECK]
  split
  · exact Adds.halt _
  · exact Adds.pure _

theorem list_partitions_loop_adds (w : World σ) :
    ∀ (fuel : Nat) (it : Option Nat),
      Adds (fun e => is_startup e = true ∧ flash_step e = none)
        (list_partitions_loop w fuel it) := by
  intro fuel
  induction fuel with
  | zero =>
    intro it
    cases it with
    | none => rw [list_partitions_loop]; exact Adds.pure _
    | some i => rw [list_partitions_loop]; exact Adds.halt _
  | succ n ih =>
    intro it
    cases it with
    | none => rw [list_partitions_loop]; exact Adds.pure _
    | some i =>
      rw [list_partitions_loop]
      refine Adds.bind (Adds.emit ⟨rfl, rfl⟩) fun _ => ?_
      refine Adds.bind (Adds.emit ⟨rfl, rfl⟩) fun _ => ?_
      exact Adds.bind (Adds.call fun _ => ⟨rfl, rfl⟩) fun next => ih next

/-- Registering the partition adds start-up events only, none of them a
flash start-up call. -/
theorem add_partition_adds (w : World σ) :
    Adds (fun e => is_startup e = true ∧ flash_step e = none) (example_add_partition w) := by
  rw [example_add_partition]
  refine Adds.bind (Adds.emit ⟨rfl, rfl⟩) fun _ => ?_
  exact Adds.bind (Adds.call fun _ => ⟨rfl, rfl⟩) fun e => Adds.check w e

/-- Listing the partitions adds start-up events only, none of them a flash
start-up call. -/
theorem list_data_partitions_adds (w : World σ) (fuel : Nat) :
    Adds (fun e => is_startup e = true ∧ flash_step e = none)
      (example_list_data_partitions w fuel) := by
  rw [example_list_data_partitions]
  refine Adds.bind (Adds.emit ⟨rfl, rfl⟩) fun _ => ?_
  refine Adds.bind (Adds.call fun _ => ⟨rfl, rfl⟩) fun it => ?_
  exact Adds.bind (list_partitions_loop_adds w fuel it) fun _ => Adds.emit ⟨rfl, rfl⟩

/-- The flash start-up adds start-up events only. -/
theorem init_adds (w : World σ) :
    Adds (fun e => is_startup e = true) (example_init_ext_flash w) := by
  rw [example_init_ext_flash]
  refine Adds.bind (Adds.emit rfl) fun _ => ?_
  refine Adds.bind (Adds.emit rfl) fun _ => ?_
  refine Adds.bind (Adds.emit rfl) fun _ => ?_
  refine Adds.bind (Adds.emit rfl) fun _ => ?_
  refine Adds.bind (Adds.call fun _ => rfl) fun e1 => ?_
  refine Adds.bind (Adds.check w e1) fun _ => ?_
  refine Adds.bind (Adds.call fun _ => rfl) fun e2 => ?_
  refine Adds.bind (Adds.check w e2) fun _ => ?_
  refine Adds.bind (Adds.call fun _ => rfl) fun err => ?_
  show Adds _ (if err ≠ ESP_OK then _ else _)
  split
  · exact Adds.bind (Adds.emit rfl) fun _ => Adds.pure _
  · refine Adds.bind (Adds.call fun _ => rfl) fun e3 => ?_
    refine Adds.bind (Adds.check w e3) fun _ => ?_
    exact Adds.bind (Adds.emit rfl) fun _ => Adds.pure _

/-- Destructuring of `Adds` at a state. -/
theorem Adds.at {α : Type} {P : Event → Prop} {p : Prog σ α} (h : Adds P p) (s : St σ) :
    ∃ (res : Res α) (s1 : St σ) (d : List Event),
      p s = (res, s1) ∧ s1.trace = s.trace ++ d ∧ ∀ e ∈ d, P e := by
  obtain ⟨d, hd, hall⟩ := h s
  exact ⟨(p s).1, (p s).2, d, rfl, hd, hall⟩

/-- The ways `app_main` runs: it stops or returns in the start-up, or the
mount fails and it returns, or the mount succeeds and it lists the files. -/
theorem app_main_cases (w : World σ) (fuel : Nat) (s0 : σ) :
    ∃ pre : List Event, (∀ e ∈ pre, is_startup e = true) ∧
      (((app_main w fuel).run s0).2.trace = pre ∨
        (∃ err, err ≠ ESP_OK ∧ ((app_main w fuel).run s0).1 = Res.ret () ∧
          ((app_main w fuel).run s0).2.trace =
            pre ++ [Event.esp_vfs_littlefs_register err,
              Event.log Level.error "Failed to mount LittleFS"]) ∨
        (∃ post, (∀ e ∈ post, is_listing e = true) ∧
          ((app_main w fuel).run s0).2.trace =
            pre ++ Event.esp_vfs_littlefs_register ESP_OK :: post)) := by
  simp only [Prog.run, app_main, bind_apply]
  obtain ⟨r1, s1, d1, h1, ht1, hp1⟩ := (init_adds w).at ⟨s0, []⟩
  rw [h1]
  simp only [List.nil_append] at ht1
  cases r1 with
  | stop e => exact ⟨d1, hp1, Or.inl ht1⟩
  | ret flash =>
    cases flash with
    | false => exact ⟨d1, hp1, Or.inl ht1⟩
    | true =>
      simp only [Bool.true_eq_false, if_false, bind_apply]
      obtain ⟨ra, sa, da, ha, hta, hpa⟩ := (add_partition_adds w).at s1
      rw [ha]
      have hp1a : ∀ e ∈ d1 ++ da, is_startup e = true := by
        intro e he
        rcases List.mem_append.1 he with h | h
        · exact hp1 e h
        · exact (hpa e h).1
      cases ra with
      | stop e => exact ⟨d1 ++ da, hp1a, Or.inl (by rw [← ht1]; exact hta)⟩
      | ret u =>
        simp only [bind_apply]
        obtain ⟨rb, sb, db, hb, htb, hpb⟩ := (list_data_partitions_adds w fuel).at sa
        rw [hb]
        have hp1b : ∀ e ∈ d1 ++ da ++ db, is_startup e = true := by
          intro e he
          rcases List.mem_append.1 he with h | h
          · exact hp1a e h
          · exact (hpb e h).1
        have htb1 : sb.trace = d1 ++ da ++ db := by rw [htb, hta, ht1]
        cases rb with
        | stop e => exact ⟨d1 ++ da ++ db, hp1b, Or.inl htb1⟩
        | ret u2 =>
          have hpre : ∀ e ∈ d1 ++ da ++ db ++
              [Event.log Level.info "Mounting LittleFS filesystem"], is_startup e = true := by
            intro e he
            rcases List.mem_append.1 he with h | h
            · exact hp1b e h
            · rw [List.mem_singleton] at h
              subst h
              rfl
          refine ⟨_, hpre, ?_⟩
          simp only [example_mount_littlefs, bind_apply, emit_apply, call_apply]
          by_cases herr : (w.esp_vfs_littlefs_register sb.world).1 = ESP_OK
          · right; right
            simp only [herr, ne_eq, not_true_eq_false, if_false, pure_apply,
              Bool.true_eq_false]
            obtain ⟨r3, s3, d3, h3, ht3, hp3⟩ := (list_files_adds w fuel).at
              ⟨(w.esp_vfs_littlefs_register sb.world).2,
                sb.trace ++ [Event.log Level.info "Mounting LittleFS filesystem"] ++
                  [Event.esp_vfs_littlefs_register ESP_OK]⟩
            refine ⟨d3, hp3, ?_⟩
            rw [h3, ht3, htb1]
            simp
          · right; left
            refine ⟨_, herr, ?_⟩
            simp [herr, htb1]

theorem is_startup_no_file_op {e : Event} (h : is_startup e = true) : is_file_op e = false := by
  cases e <;> simp_all [is_startup, is_file_op]

theorem is_listing_no_mount {e : Event} (h : is_listing e = true) :
    is_partition_or_mount e = false ∧ flash_step e = none := by
  cases e <;> simp_all [is_listing, is_partition_or_mount, flash_step]

theorem flash_step_err_none {e : Event} (h : flash_step e = none) : flash_step_err e = none := by
  cases e <;> simp_all [flash_step, flash_step_err]

/-- C3: when the registration of the filesystem made by
`example_mount_littlefs` (with `format_if_mount_failed` set) returns an error,
`example_mount_littlefs` returns `false`, and a run of `app_main` in which
that call returned an error returns, its trace holding no file or directory
operation (no `opendir`, `readdir`, `stat`, `unlink`, `closedir`, `fopen`,
`fwrite`, `fclose` or usage query). -/
theorem mount_failure_stops_app_main (w : World σ) (fuel : Nat) (s0 : σ) :
    (∀ s : St σ, (w.esp_vfs_littlefs_register s.world).1 ≠ ESP_OK →
      (example_mount_littlefs w s).1 = Res.ret false) ∧
    (∀ err, err ≠ ESP_OK →
      Event.esp_vfs_littlefs_register err ∈ ((app_main w fuel).run s0).2.trace →
      ((app_main w fuel).run s0).1 = Res.ret () ∧
      ∀ e ∈ ((app_main w fuel).run s0).2.trace, is_file_op e = false) := by
  constructor
  · intro s hs
    simp [example_mount_littlefs, hs]
  · intro err herr hmem
    obtain ⟨pre, hpre, hcase⟩ := app_main_cases w fuel s0
    rcases hcase with h | ⟨err1, _, hret, h⟩ | ⟨post, hpost, h⟩
    · rw [h] at hmem
      have := hpre _ hmem
      simp [is_startup] at this
    · refine ⟨hret, ?_⟩
      rw [h]
      intro e he
      rcases List.mem_append.1 he with h1 | h1
      · exact is_startup_no_file_op (hpre e h1)
      · simp only [List.mem_cons, List.mem_singleton, List.not_mem_nil, or_false] at h1
        rcases h1 with rfl | rfl <;> rfl
    · rw [h] at hmem
      rcases List.mem_append.1 hmem with h1 | h1
      · have := hpre _ h1
        simp [is_startup] at this
      · rcases List.mem_cons.1 h1 with h2 | h2
        · injection h2 with h3
          exact absurd h3 herr
        · have := hpost _ h2
          simp [is_listing] at this

/-- C3 on a script whose mount fails with code 5. -/
theorem mount_failure_stops_app_main_witness :
    ((app_main (scripted true) 3).run { Script.good with mount := 5 }).1 = Res.ret () ∧
      ∀ e ∈ ((app_main (scripted true) 3).run { Script.good with mount := 5 }).2.trace,
        is_file_op e = false :=
  (mount_failure_stops_app_main (scripted true) 3 { Script.good with mount := 5 }).2 5
    (by decide) (by decide!)

/-- What the flash start-up does in a build whose `ESP_ERROR_CHECK` aborts. -/
theorem init_apply_aborting (w : World σ) (hab : w.error_check_aborts = true) (s : St σ) :
    example_init_ext_flash w s =
      if (w.spi_bus_init s.world).1 ≠ ESP_OK then
        (Res.stop Stop.abort, ⟨(w.spi_bus_init s.world).2,
          s.trace ++ init_logs ++ [Event.spi_bus_init (w.spi_bus_init s.world).1]⟩)
      else if (w.spi_bus_add_flash_device (w.spi_bus_init s.world).2).1 ≠ ESP_OK then
        (Res.stop Stop.abort, ⟨(w.spi_bus_add_flash_device (w.spi_bus_init s.world).2).2,
          s.trace ++ init_logs ++ [Event.spi_bus_init (w.spi_bus_init s.world).1,
            Event.spi_bus_add_flash_device
              (w.spi_bus_add_flash_device (w.spi_bus_init s.world).2).1]⟩)
      else if (w.esp_flash_init
          (w.spi_bus_add_flash_device (w.spi_bus_init s.world).2).2).1 ≠ ESP_OK then
        (Res.ret false,
          ⟨(w.esp_flash_init (w.spi_bus_add_flash_device (w.spi_bus_init s.world).2).2).2,
          s.trace ++ init_logs ++ [Event.spi_bus_init (w.spi_bus_init s.world).1,
            Event.spi_bus_add_flash_device
              (w.spi_bus_add_flash_device (w.spi_bus_init s.world).2).1,
            Event.esp_flash_init
              (w.esp_flash_init (w.spi_bus_add_flash_device (w.spi_bus_init s.world).2).2).1,
            Event.log Level.error "Failed to initialize external Flash"]⟩)
      else if (w.esp_flash_read_id (w.esp_flash_init
          (w.spi_bus_add_flash_device (w.spi_bus_init s.world).2).2).2).1 ≠ ESP_OK then
        (Res.stop Stop.abort,
          ⟨(w.esp_flash_read_id (w.esp_flash_init
            (w.spi_bus_add_flash_device (w.spi_bus_init s.world).2).2).2).2,
          s.trace ++ init_logs ++ [Event.spi_bus_init (w.spi_bus_init s.world).1,
            Event.spi_bus_add_flash_device
              (w.spi_bus_add_flash_device (w.spi_bus_init s.world).2).1,
            Event.esp_flash_init
              (w.esp_flash_init (w.spi_bus_add_flash_device (w.spi_bus_init s.world).2).2).1,
            Event.esp_flash_read_id (w.esp_flash_read_id (w.esp_flash_init
              (w.spi_bus_add_flash_device (w.spi_bus_init s.world).2).2).2).1]⟩)
      else
        (Res.ret true,
          ⟨(w.esp_flash_read_id (w.esp_flash_init
            (w.spi_bus_add_flash_device (w.spi_bus_init s.world).2).2).2).2,
          s.trace ++ init_logs ++ [Event.spi_bus_init (w.spi_bus_init s.world).1,
            Event.spi_bus_add_flash_device
              (w.spi_bus_add_flash_device (w.spi_bus_init s.world).2).1,
            Event.esp_flash_init
              (w.esp_flash_init (w.spi_bus_add_flash_device (w.spi_bus_init s.world).2).2).1,
            Event.esp_flash_read_id (w.esp_flash_read_id (w.esp_flash_init
              (w.spi_bus_add_flash_device (w.spi_bus_init s.world).2).2).2).1,
            Event.log Level.info "Initialized external Flash"]⟩) := by
  simp only [example_init_ext_flash, ESP_ERROR_CHECK, hab, bind_apply, emit_apply, call_apply,
    and_true, init_logs]
  split_ifs <;> simp_all

/-- What follows a successful flash start-up adds no flash start-up call. -/
theorem after_init_adds (w : World σ) (fuel : Nat) :
    Adds (fun e => flash_step e = none) (do
      example_add_partition w
      example_list_data_partitions w fuel
      let mounted ← example_mount_littlefs w
      if mounted = false then
        pure ()
      else
        list_files_in_extflash w fuel : Prog σ Unit) := by
  refine Adds.bind ((add_partition_adds w).mono fun e h => h.2) fun _ => ?_
  refine Adds.bind ((list_data_partitions_adds w fuel).mono fun e h => h.2) fun _ => ?_
  refine Adds.bind ?_ fun mounted => ?_
  · rw [example_mount_littlefs]
    refine Adds.bind (Adds.emit rfl) fun _ => ?_
    refine Adds.bind (Adds.call fun _ => rfl) fun err => ?_
    show Adds _ (if err ≠ ESP_OK then _ else _)
    split
    · exact Adds.bind (Adds.emit rfl) fun _ => Adds.pure _
    · exact Adds.pure _
  · split
    · exact Adds.pure _
    · exact (list_files_adds w fuel).mono fun e h => (is_listing_no_mount h).2

/-- The claim of C4 fails on the code: when `spi_bus_initialize` fails,
`app_main` does not return.  In the default build `ESP_ERROR_CHECK` aborts
the program; in a build without the check the start-up goes on and the
partition is registered. -/
theorem bus_failure_does_not_return :
    Event.spi_bus_init 5 ∈
        ((app_main (scripted true) 3).run { Script.good with bus := 5 }).2.trace ∧
      ((app_main (scripted true) 3).run { Script.good with bus := 5 }).1 =
        Res.stop Stop.abort ∧
      ((app_main (scripted true) 3).run { Script.good with bus := 5 }).1 ≠ Res.ret () ∧
      Event.spi_bus_init 5 ∈
        ((app_main (scripted false) 3).run { Script.good with bus := 5 }).2.trace ∧
      Event.esp_partition_register_external 0 ∈
        ((app_main (scripted false) 3).run { Script.good with bus := 5 }).2.trace := by
  decide!

/-- C4, amended: in the default build, where a failed `ESP_ERROR_CHECK`
aborts, a run of `app_main` in which a flash start-up call fails (the bus
initialisation, adding the device, the probe `esp_flash_init` or the id read)
registers no partition, mounts no filesystem and makes no file operation, and
makes the start-up calls in order, each at most once.  When the probe failed
`app_main` returns; when one of the other three failed the program aborts and
`app_main` does not return. -/
theorem flash_startup_failure_stops_app_main (w : World σ)
    (hab : w.error_check_aborts = true) (fuel : Nat) (s0 : σ)
    (hfail : ∃ e ∈ ((app_main w fuel).run s0).2.trace,
      ∃ err, flash_step_err e = some err ∧ err ≠ ESP_OK) :
    (∀ e ∈ ((app_main w fuel).run s0).2.trace,
      is_partition_or_mount e = false ∧ is_file_op e = false) ∧
    List.Pairwise (fun a b => a < b)
      ((((app_main w fuel).run s0).2.trace).filterMap flash_step) ∧
    ((∃ err, err ≠ ESP_OK ∧
        Event.esp_flash_init err ∈ ((app_main w fuel).run s0).2.trace) →
      ((app_main w fuel).run s0).1 = Res.ret ()) ∧
    ((∀ err, Event.esp_flash_init err ∈ ((app_main w fuel).run s0).2.trace →
        err = ESP_OK) →
      ((app_main w fuel).run s0).1 = Res.stop Stop.abort) := by
  revert hfail
  simp only [Prog.run, app_main, bind_apply, init_apply_aborting w hab]
  split_ifs with h1 h2 h3 h4
  · intro _
    simp [init_logs, is_partition_or_mount, is_file_op, flash_step]
  · intro _
    simp [init_logs, is_partition_or_mount, is_file_op, flash_step]
  · intro _
    simp [init_logs, is_partition_or_mount, is_file_op, flash_step, h3]
  · intro _
    simp [init_logs, is_partition_or_mount, is_file_op, flash_step]
    simpa using h3
  · intro hfail
    exfalso
    simp only [Bool.true_eq_false, if_false] at hfail
    obtain ⟨d, hd, hall⟩ := after_init_adds w fuel
      ⟨(w.esp_flash_read_id (w.esp_flash_init
          (w.spi_bus_add_flash_device (w.spi_bus_init s0).2).2).2).2,
        [] ++ init_logs ++ [Event.spi_bus_init (w.spi_bus_init s0).1,
          Event.spi_bus_add_flash_device (w.spi_bus_add_flash_device (w.spi_bus_init s0).2).1,
          Event.esp_flash_init
            (w.esp_flash_init (w.spi_bus_add_flash_device (w.spi_bus_init s0).2).2).1,
          Event.esp_flash_read_id (w.esp_flash_read_id (w.esp_flash_init
            (w.spi_bus_add_flash_device (w.spi_bus_init s0).2).2).2).1,
          Event.log Level.info "Initialized external Flash"]⟩
    obtain ⟨e, he, err, herr, hne⟩ := hfail
    rw [hd] at he
    rcases List.mem_append.1 he with h | h
    · simp only [init_logs, List.nil_append, List.cons_append, List.mem_cons,
        List.mem_singleton, List.not_mem_nil, or_false] at h
      simp only [ne_eq, not_not] at h1 h2 h3 h4
      rcases h with rfl | rfl | rfl | rfl | rfl | rfl | rfl | rfl | rfl <;>
        simp_all [flash_step_err]
    · rw [flash_step_err_none (hall e h)] at herr
      cases herr

/-- C4, amended, on a script whose probe fails with code 7. -/
theorem flash_startup_failure_stops_app_main_witness :
    (∀ e ∈ ((app_main (scripted true) 3).run { Script.good with probe := 7 }).2.trace,
      is_partition_or_mount e = false ∧ is_file_op e = false) ∧
    List.Pairwise (fun a b => a < b)
      ((((app_main (scripted true) 3).run
        { Script.good with probe := 7 }).2.trace).filterMap flash_step) ∧
    ((∃ err, err ≠ ESP_OK ∧ Event.esp_flash_init err ∈
        ((app_main (scripted true) 3).run { Script.good with probe := 7 }).2.trace) →
      ((app_main (scripted true) 3).run { Script.good with probe := 7 }).1 = Res.ret ()) ∧
    ((∀ err, Event.esp_flash_init err ∈
        ((app_main (scripted true) 3).run { Script.good with probe := 7 }).2.trace →
        err = ESP_OK) →
      ((app_main (scripted true) 3).run { Script.good with probe := 7 }).1 =
        Res.stop Stop.abort) :=
  flash_startup_failure_stops_app_main (scripted true) rfl 3 { Script.good with probe := 7 }
    ⟨Event.esp_flash_init 7, by decide!, 7, rfl, by decide⟩

end Startup

/-! ## The helpers over the in-memory filesystem -/

section Mem

theorem strip_leading_append (pre s : CStr) : strip_leading pre (pre ++ s) = some s := by
  induction pre with
  | nil => cases s <;> rfl
  | cons c pre ih => simp [strip_leading, ih]

theorem resolve_sprintf_path (name : CStr) : resolve (sprintf_path name) = some name := by
  have h : sprintf_path name = (base_path ++ ['/']) ++ name := by simp [sprintf_path]
  rw [resolve, h, strip_leading_append]

theorem lookup_append_new (name : CStr) (node : Node) (entries : List (CStr × Node))
    (h : lookup name entries = none) : lookup name (entries ++ [(name, node)]) = some node := by
  induction entries with
  | nil => simp [lookup]
  | cons e rest ih =>
    by_cases he : e.1 = name
    · simp [lookup, he] at h
    · simp only [lookup, he, if_false] at h
      simp [lookup, he, ih h]

theorem used_bytes_append (a b : List (CStr × Node)) :
    used_bytes (a ++ b) = used_bytes a + used_bytes b := by
  induction a with
  | nil => simp [used_bytes]
  | cons e rest ih => simp [used_bytes, ih]; omega

theorem lookup_append_to (name : CStr) (old bytes : List Byte) (entries : List (CStr × Node))
    (h : lookup name entries = some (Node.file old)) :
    lookup name (append_to name bytes entries) = some (Node.file (old ++ bytes)) ∧
      used_bytes (append_to name bytes entries) = used_bytes entries + bytes.length := by
  induction entries with
  | nil => simp [lookup] at h
  | cons e rest ih =>
    by_cases he : e.1 = name
    · simp only [lookup, he, if_true, Option.some.injEq] at h
      simp [append_to, he, h, lookup, used_bytes, Node.size]
      omega
    · simp only [lookup, he, if_false] at h
      have := ih h
      simp [append_to, he, lookup, used_bytes, this.1, this.2]
      omega

/-- The platform state after one append, over any platform. -/
theorem write_timestamp_world {σ : Type} (w : World σ) (path : CStr) (ts data : Nat)
    (s : St σ) :
    (write_timestamp_and_data_to_file w path ts data s).1 = Res.ret () ∧
      (write_timestamp_and_data_to_file w path ts data s).2.world =
        match (w.fopen path s.world).1 with
        | none => (w.fopen path s.world).2
        | some f =>
          w.fclose f (w.fwrite (le_bytes 4 data) f
            (w.fwrite (le_bytes 8 ts) f (w.fopen path s.world).2).2).2 := by
  simp only [write_timestamp_and_data_to_file, bind_apply, emit_apply, call_apply]
  cases (w.fopen path s.world).1 <;> simp

/-- A write to the open file of the in-memory filesystem, with room for it. -/
theorem memfs_fwrite (bytes : List Byte) (f : Nat) (name : CStr) (w0 : MemFS)
    (ho : w0.open_file = some name)
    (hroom : used_bytes w0.entries + bytes.length ≤ w0.total) :
    memfs.fwrite bytes f w0 = (1, { w0 with entries := append_to name bytes w0.entries }) := by
  simp [memfs, ho, hroom]

/-- One append over the in-memory filesystem, with room for the record: the
record goes to the end of the file, which is created when absent. -/
theorem write_timestamp_memfs (name : CStr) (ts data : Nat) (s : St MemFS)
    (hfile : lookup name s.world.entries = none ∨
      ∃ old, lookup name s.world.entries = some (Node.file old))
    (hroom : used_bytes s.world.entries + 12 ≤ s.world.total) :
    (write_timestamp_and_data_to_file memfs (sprintf_path name) ts data s).1 = Res.ret () ∧
      lookup name
          (write_timestamp_and_data_to_file memfs (sprintf_path name) ts data s).2.world.entries =
        some (Node.file (file_bytes name s.world.entries ++ record ts data)) ∧
      used_bytes
          (write_timestamp_and_data_to_file memfs (sprintf_path name) ts data s).2.world.entries =
        used_bytes s.world.entries + 12 ∧
      (write_timestamp_and_data_to_file memfs (sprintf_path name) ts data s).2.world.total =
        s.world.total := by
  have key : ∀ (w0 : MemFS) (old : List Byte), w0.open_file = some name →
      lookup name w0.entries = some (Node.file old) → used_bytes w0.entries + 12 ≤ w0.total →
      lookup name (memfs.fclose 1 (memfs.fwrite (le_bytes 4 data) 1
          (memfs.fwrite (le_bytes 8 ts) 1 w0).2).2).entries =
        some (Node.file (old ++ record ts data)) ∧
      used_bytes (memfs.fclose 1 (memfs.fwrite (le_bytes 4 data) 1
          (memfs.fwrite (le_bytes 8 ts) 1 w0).2).2).entries = used_bytes w0.entries + 12 ∧
      (memfs.fclose 1 (memfs.fwrite (le_bytes 4 data) 1
          (memfs.fwrite (le_bytes 8 ts) 1 w0).2).2).total = w0.total := by
    intro w0 old ho hl hr
    have h8 := lookup_append_to name old (le_bytes 8 ts) w0.entries hl
    have h4 := lookup_append_to name (old ++ le_bytes 8 ts) (le_bytes 4 data)
      (append_to name (le_bytes 8 ts) w0.entries) h8.1
    rw [memfs_fwrite (le_bytes 8 ts) 1 name w0 ho (by rw [le_bytes_length]; omega)]
    rw [memfs_fwrite (le_bytes 4 data) 1 name
      { w0 with entries := append_to name (le_bytes 8 ts) w0.entries } ho
      (by simp only [h8.2, le_bytes_length]; omega)]
    refine ⟨?_, ?_, rfl⟩
    · show lookup name (append_to name (le_bytes 4 data)
        (append_to name (le_bytes 8 ts) w0.entries)) = _
      rw [h4.1, record, List.append_assoc]
    · show used_bytes (append_to name (le_bytes 4 data)
        (append_to name (le_bytes 8 ts) w0.entries)) = _
      rw [h4.2, h8.2, le_bytes_length, le_bytes_length]
  obtain ⟨hret, hworld⟩ := write_timestamp_world memfs (sprintf_path name) ts data s
  refine ⟨hret, ?_⟩
  rw [hworld]
  rcases hfile with hnone | ⟨old, hold⟩
  · have hnew := lookup_append_new name (Node.file []) s.world.entries hnone
    have hu : used_bytes (s.world.entries ++ [(name, Node.file [])]) =
        used_bytes s.world.entries := by
      rw [used_bytes_append]
      simp [used_bytes, Node.size]
    have hopen : memfs.fopen (sprintf_path name) s.world =
        (some 1, { s.world with entries := s.world.entries ++ [(name, Node.file [])],
                                open_file := some name }) := by
      simp [memfs, resolve_sprintf_path, hnone]
    rw [hopen]
    have h := key { s.world with entries := s.world.entries ++ [(name, Node.file [])],
                                 open_file := some name } [] rfl hnew (by rw [hu]; exact hroom)
    rw [hu] at h
    simpa [file_bytes, hnone] using h
  · have hopen : memfs.fopen (sprintf_path name) s.world =
        (some 1, { s.world with open_file := some name }) := by
      simp [memfs, resolve_sprintf_path, hold]
    rw [hopen]
    have h := key { s.world with open_file := some name } old rfl hold hroom
    simpa [file_bytes, hold] using h

/-- Successive appends over the in-memory filesystem, with room for all the
records: the file ends with its old content followed by the records. -/
theorem write_all_memfs (name : CStr) :
    ∀ (recs : List (Nat × Nat)) (s : St MemFS),
      (lookup name s.world.entries = none ∨
        ∃ old, lookup name s.world.entries = some (Node.file old)) →
      used_bytes s.world.entries + 12 * recs.length ≤ s.world.total →
      (write_all memfs (sprintf_path name) recs s).1 = Res.ret () ∧
        file_bytes name (write_all memfs (sprintf_path name) recs s).2.world.entries =
          file_bytes name s.world.entries ++ recs.flatMap (fun r => record r.1 r.2) ∧
        (recs ≠ [] → ∃ bytes,
          lookup name (write_all memfs (sprintf_path name) recs s).2.world.entries =
            some (Node.file bytes)) := by
  intro recs
  induction recs with
  | nil => intro s _ _; simp [write_all]
  | cons r rest ih =>
    intro s hfile hroom
    simp only [List.length_cons] at hroom
    obtain ⟨h1, h2, h3, h4⟩ := write_timestamp_memfs name r.1 r.2 s hfile (by omega)
    simp only [write_all, bind_apply]
    generalize write_timestamp_and_data_to_file memfs (sprintf_path name) r.1 r.2 s = x
      at h1 h2 h3 h4
    obtain ⟨res, s1⟩ := x
    simp only at h1 h2 h3 h4
    subst h1
    simp only
    obtain ⟨i1, i2, i3⟩ := ih s1 (Or.inr ⟨_, h2⟩) (by rw [h3, h4]; omega)
    refine ⟨i1, ?_, ?_⟩
    · rw [i2]
      simp [file_bytes, h2]
    · intro _
      cases rest with
      | nil => exact ⟨_, by simpa [write_all] using h2⟩
      | cons a l => exact i3 (by simp)

theorem record_length (ts data : Nat) : (record ts data).length = 12 := by
  simp [record, le_bytes_length]

theorem records_length (recs : List (Nat × Nat)) :
    (recs.flatMap fun r => record r.1 r.2).length = 12 * recs.length := by
  induction recs with
  | nil => rfl
  | cons r rest ih =>
    rw [List.flatMap_cons, List.length_append, ih, record_length, List.length_cons]
    omega

/-- The claim of C2 fails on the code: on a medium of 20 octets, two calls
on an absent file leave it with 20 octets, not 24; the last `fwrite` fails
and its result is ignored. -/
theorem two_appends_on_twenty_octets :
    lookup ['t'] (MemFS.empty 20).entries = none ∧
      (file_bytes ['t']
        ((write_all memfs (sprintf_path ['t']) [(1, 0), (2, 1)]).run
          (MemFS.empty 20)).2.world.entries).length = 20 ∧
      (file_bytes ['t']
        ((write_all memfs (sprintf_path ['t']) [(1, 0), (2, 1)]).run
          (MemFS.empty 20)).2.world.entries).length ≠ 2 * 12 := by
  decide!

/-- C2, amended: over the in-memory filesystem, for every sequence of N
pairs of a timestamp and a counter value, N calls of
`write_timestamp_and_data_to_file` on one path of the mount root, starting
from an absent or empty file, on a medium with room for the N records, all
return and leave that file with the N records in order, N × 12 octets. -/
theorem appends_make_twelve_octets_each (fs : MemFS) (name : CStr)
    (recs : List (Nat × Nat))
    (hstart : lookup name fs.entries = none ∨ lookup name fs.entries = some (Node.file []))
    (hroom : used_bytes fs.entries + 12 * recs.length ≤ fs.total) :
    ((write_all memfs (sprintf_path name) recs).run fs).1 = Res.ret () ∧
      file_bytes name ((write_all memfs (sprintf_path name) recs).run fs).2.world.entries =
        recs.flatMap (fun r => record r.1 r.2) ∧
      (file_bytes name
        ((write_all memfs (sprintf_path name) recs).run fs).2.world.entries).length =
        recs.length * 12 := by
  have hfile : lookup name fs.entries = none ∨
      ∃ old, lookup name fs.entries = some (Node.file old) := by
    rcases hstart with h | h
    · exact Or.inl h
    · exact Or.inr ⟨[], h⟩
  have h0 : file_bytes name fs.entries = [] := by
    rcases hstart with h | h <;> simp [file_bytes, h]
  obtain ⟨h1, h2, _⟩ := write_all_memfs name recs ⟨fs, []⟩ hfile hroom
  rw [h0, List.nil_append] at h2
  refine ⟨h1, h2, ?_⟩
  rw [Prog.run, h2, records_length, Nat.mul_comm]

/-- C2, amended, at three calls on an absent file over a medium of 40 octets. -/
theorem appends_make_twelve_octets_each_witness :
    ((write_all memfs (sprintf_path ['t']) [(5, 0), (6, 1), (9, 2)]).run
        (MemFS.empty 40)).1 = Res.ret () ∧
      file_bytes ['t'] ((write_all memfs (sprintf_path ['t']) [(5, 0), (6, 1), (9, 2)]).run
        (MemFS.empty 40)).2.world.entries =
        [(5, 0), (6, 1), (9, 2)].flatMap (fun r => record r.1 r.2) ∧
      (file_bytes ['t'] ((write_all memfs (sprintf_path ['t']) [(5, 0), (6, 1), (9, 2)]).run
        (MemFS.empty 40)).2.world.entries).length = [(5, 0), (6, 1), (9, 2)].length * 12 :=
  appends_make_twelve_octets_each (MemFS.empty 40) ['t'] [(5, 0), (6, 1), (9, 2)]
    (Or.inl rfl) (by decide)

/-- The listing loop over the in-memory filesystem: it reads the stream to
its end and prints each entry with the size `stat` gives. -/
theorem list_files_loop_memfs (entries : List (CStr × Node)) :
    ∀ (names : List CStr) (fuel : Nat) (st : Option Nat) (s : St MemFS),
      s.world.entries = entries → s.world.dir_stream = names → names.length < fuel →
      (∀ n ∈ names, (lookup n entries).isSome) →
      list_files_loop memfs 1 fuel st s =
        (Res.ret (), ⟨{ s.world with dir_stream := [] },
          s.trace ++ names.flatMap (listing_events entries) ++ [Event.readdir 1 none]⟩) := by
  intro names
  induction names with
  | nil =>
    intro fuel st s he hs hf _
    obtain ⟨n, rfl⟩ : ∃ n, fuel = n + 1 := ⟨fuel - 1, by simp at hf; omega⟩
    obtain ⟨w0, tr⟩ := s
    obtain ⟨en, tot, ds, opn, cl⟩ := w0
    simp only at he hs
    subst hs
    simp [list_files_loop, memfs]
  | cons name rest ih =>
    intro fuel st s he hs hf hall
    obtain ⟨n, rfl⟩ : ∃ n, fuel = n + 1 := ⟨fuel - 1, by simp at hf; omega⟩
    obtain ⟨w0, tr⟩ := s
    simp only at he hs
    obtain ⟨node, hnode⟩ := Option.isSome_iff_exists.1 (hall name (List.mem_cons_self _ _))
    have hread : memfs.readdir 1 w0 = (some name, { w0 with dir_stream := rest }) := by
      simp [memfs, hs]
    have hstat : memfs.stat (sprintf_path name) { w0 with dir_stream := rest } =
        (some node.size, { w0 with dir_stream := rest }) := by
      simp [memfs, resolve_sprintf_path, he, hnode]
    rw [list_files_loop]
    simp only [bind_apply, call_apply, emit_apply, hread, hstat]
    rw [ih n _ _ he rfl (by simp at hf; omega)
      (fun m hm => hall m (List.mem_cons_of_mem _ hm))]
    simp [listing_events, hnode]

/-- A listing over the in-memory filesystem returns, given fuel for the
entries, and prints each entry of the root with the size `stat` gives. -/
theorem list_files_memfs (fs : MemFS) (fuel : Nat) (hf : fs.entries.length < fuel) :
    ((list_files_in_extflash memfs fuel).run fs).1 = Res.ret () ∧
      ((list_files_in_extflash memfs fuel).run fs).2.trace =
        Event.opendir base_path (some 1) ::
          ((fs.entries.map Prod.fst).flatMap (listing_events fs.entries) ++
            [Event.readdir 1 none, Event.closedir 1,
              Event.esp_littlefs_partition_info ESP_OK fs.total (used_bytes fs.entries),
              Event.printf (Line.usage (fs.total % SIZE_T) (used_bytes fs.entries % SIZE_T))]) := by
  have hopen : memfs.opendir base_path fs =
      (some 1, { fs with dir_stream := fs.entries.map Prod.fst }) := by
    simp [memfs]
  have hall : ∀ n ∈ fs.entries.map Prod.fst, (lookup n fs.entries).isSome := by
    intro n hn
    generalize fs.entries = l at hn
    induction l with
    | nil => simp at hn
    | cons e rest ih =>
      by_cases he : e.1 = n
      · simp [lookup, he]
      · simp only [List.map_cons, List.mem_cons] at hn
        rcases hn with h | h
        · exact absurd h.symm he
        · simp [lookup, he, ih h]
  simp only [Prog.run, list_files_in_extflash, bind_apply, call_apply, hopen]
  rw [list_files_loop_memfs fs.entries (fs.entries.map Prod.fst) fuel none _ rfl rfl
    (by simpa using hf) hall]
  simp [memfs]

/-- The trace after one append, over any platform. -/
theorem write_timestamp_trace {σ : Type} (w : World σ) (path : CStr) (ts data : Nat)
    (s : St σ) :
    (write_timestamp_and_data_to_file w path ts data s).2.trace =
      s.trace ++ [Event.enter_write path ts data, Event.fopen path (w.fopen path s.world).1] ++
        match (w.fopen path s.world).1 with
        | none => [Event.log Level.error "Failed to open file for writing"]
        | some f =>
          [Event.fwrite (le_bytes 8 ts) f (w.fwrite (le_bytes 8 ts) f (w.fopen path s.world).2).1,
            Event.fwrite (le_bytes 4 data) f
              (w.fwrite (le_bytes 4 data) f
                (w.fwrite (le_bytes 8 ts) f (w.fopen path s.world).2).2).1,
            Event.fclose f] := by
  simp only [write_timestamp_and_data_to_file, bind_apply, emit_apply, call_apply]
  cases (w.fopen path s.world).1 <;> simp

/-- A write to the open file of the in-memory filesystem, with or without
room for it: the file grows by the octets the call reports as stored. -/
theorem memfs_fwrite_any (bytes : List Byte) (f : Nat) (name : CStr) (old : List Byte)
    (w0 : MemFS) (ho : w0.open_file = some name)
    (hl : lookup name w0.entries = some (Node.file old)) :
    (memfs.fwrite bytes f w0).2.open_file = some name ∧
      (memfs.fwrite bytes f w0).2.total = w0.total ∧
      lookup name (memfs.fwrite bytes f w0).2.entries =
        some (Node.file (old ++ stored (Event.fwrite bytes f (memfs.fwrite bytes f w0).1))) ∧
      used_bytes (memfs.fwrite bytes f w0).2.entries =
        used_bytes w0.entries +
          (stored (Event.fwrite bytes f (memfs.fwrite bytes f w0).1)).length := by
  by_cases hroom : used_bytes w0.entries + bytes.length ≤ w0.total
  · rw [memfs_fwrite bytes f name w0 ho hroom]
    have h := lookup_append_to name old bytes w0.entries hl
    simp [stored, ho, h.1, h.2]
  · have h0 : memfs.fwrite bytes f w0 = (0, w0) := by simp [memfs, ho, hroom]
    rw [h0]
    simp [stored, ho, hl]

/-- One append over the in-memory filesystem to an absent or regular file of
the root, with or without room for the record: the call returns and the
file grows by the octets the `fwrite` calls report as stored, 12 at most. -/
theorem write_timestamp_memfs_any (name : CStr) (ts data : Nat) (s : St MemFS)
    (hfile : lookup name s.world.entries = none ∨
      ∃ old, lookup name s.world.entries = some (Node.file old)) :
    ∃ X : List Byte, X.length ≤ 12 ∧
      (write_timestamp_and_data_to_file memfs (sprintf_path name) ts data s).1 = Res.ret () ∧
      lookup name
          (write_timestamp_and_data_to_file memfs (sprintf_path name) ts data s).2.world.entries =
        some (Node.file (file_bytes name s.world.entries ++ X)) ∧
      appended (write_timestamp_and_data_to_file memfs (sprintf_path name) ts data s).2.trace =
        appended s.trace ++ X ∧
      used_bytes
          (write_timestamp_and_data_to_file memfs (sprintf_path name) ts data s).2.world.entries =
        used_bytes s.world.entries + X.length ∧
      (write_timestamp_and_data_to_file memfs (sprintf_path name) ts data s).2.world.total =
        s.world.total := by
  have key : ∀ (w0 : MemFS) (old : List Byte), w0.open_file = some name →
      lookup name w0.entries = some (Node.file old) →
      ∃ X : List Byte, X.length ≤ 12 ∧
        X = stored (Event.fwrite (le_bytes 8 ts) 1 (memfs.fwrite (le_bytes 8 ts) 1 w0).1) ++
          stored (Event.fwrite (le_bytes 4 data) 1
            (memfs.fwrite (le_bytes 4 data) 1 (memfs.fwrite (le_bytes 8 ts) 1 w0).2).1) ∧
        lookup name (memfs.fclose 1 (memfs.fwrite (le_bytes 4 data) 1
            (memfs.fwrite (le_bytes 8 ts) 1 w0).2).2).entries = some (Node.file (old ++ X)) ∧
        used_bytes (memfs.fclose 1 (memfs.fwrite (le_bytes 4 data) 1
            (memfs.fwrite (le_bytes 8 ts) 1 w0).2).2).entries = used_bytes w0.entries + X.length ∧
        (memfs.fclose 1 (memfs.fwrite (le_bytes 4 data) 1
            (memfs.fwrite (le_bytes 8 ts) 1 w0).2).2).total = w0.total := by
    intro w0 old ho hl
    obtain ⟨a1, a2, a3, a4⟩ := memfs_fwrite_any (le_bytes 8 ts) 1 name old w0 ho hl
    obtain ⟨b1, b2, b3, b4⟩ := memfs_fwrite_any (le_bytes 4 data) 1 name _
      (memfs.fwrite (le_bytes 8 ts) 1 w0).2 a1 a3
    have hlen8 : (stored (Event.fwrite (le_bytes 8 ts) 1
        (memfs.fwrite (le_bytes 8 ts) 1 w0).1)).length ≤ 8 := by
      simp only [stored]
      split <;> simp [le_bytes_length]
    have hlen4 : (stored (Event.fwrite (le_bytes 4 data) 1
        (memfs.fwrite (le_bytes 4 data) 1 (memfs.fwrite (le_bytes 8 ts) 1 w0).2).1)).length
        ≤ 4 := by
      simp only [stored]
      split <;> simp [le_bytes_length]
    refine ⟨_, ?_, rfl, ?_, ?_, ?_⟩
    · rw [List.length_append]
      omega
    · show lookup name (memfs.fwrite (le_bytes 4 data) 1
        (memfs.fwrite (le_bytes 8 ts) 1 w0).2).2.entries = _
      rw [b3, List.append_assoc]
    · show used_bytes (memfs.fwrite (le_bytes 4 data) 1
        (memfs.fwrite (le_bytes 8 ts) 1 w0).2).2.entries = _
      rw [b4, a4, List.length_append]
      omega
    · show (memfs.fwrite (le_bytes 4 data) 1
        (memfs.fwrite (le_bytes 8 ts) 1 w0).2).2.total = _
      rw [b2, a2]
  obtain ⟨hret, hworld⟩ := write_timestamp_world memfs (sprintf_path name) ts data s
  have htrace := write_timestamp_trace memfs (sprintf_path name) ts data s
  rcases hfile with hnone | ⟨old, hold⟩
  · have hnew := lookup_append_new name (Node.file []) s.world.entries hnone
    have hu : used_bytes (s.world.entries ++ [(name, Node.file [])]) =
        used_bytes s.world.entries := by
      rw [used_bytes_append]
      simp [used_bytes, Node.size]
    have hopen : memfs.fopen (sprintf_path name) s.world =
        (some 1, { s.world with entries := s.world.entries ++ [(name, Node.file [])],
                                open_file := some name }) := by
      simp [memfs, resolve_sprintf_path, hnone]
    rw [hopen] at hworld htrace
    obtain ⟨X, hX, hXeq, k1, k2, k3⟩ :=
      key { s.world with entries := s.world.entries ++ [(name, Node.file [])],
                         open_file := some name } [] rfl hnew
    refine ⟨X, hX, hret, ?_, ?_, ?_, ?_⟩
    · rw [hworld]
      simpa [file_bytes, hnone] using k1
    · rw [htrace, hXeq]
      simp [appended, stored]
    · rw [hworld]
      simp only at k2 ⊢
      rw [k2, hu]
    · rw [hworld]
      exact k3
  · have hopen : memfs.fopen (sprintf_path name) s.world =
        (some 1, { s.world with open_file := some name }) := by
      simp [memfs, resolve_sprintf_path, hold]
    rw [hopen] at hworld htrace
    obtain ⟨X, hX, hXeq, k1, k2, k3⟩ := key { s.world with open_file := some name } old rfl hold
    refine ⟨X, hX, hret, ?_, ?_, ?_, ?_⟩
    · rw [hworld]
      simpa [file_bytes, hold] using k1
    · rw [htrace, hXeq]
      simp [appended, stored]
    · rw [hworld]
      exact k2
    · rw [hworld]
      exact k3

/-- The delete loop over the in-memory filesystem, on a root of regular
files: it returns, given fuel for the entries, and leaves the root empty. -/
theorem delete_all_loop_memfs :
    ∀ (entries : List (CStr × Node)) (fuel : Nat) (s : St MemFS),
      (∀ e ∈ entries, ∃ b, e.2 = Node.file b) →
      s.world.entries = entries → s.world.dir_stream = entries.map Prod.fst →
      entries.length < fuel →
      (delete_all_loop memfs 1 fuel s).1 = Res.ret () ∧
        (delete_all_loop memfs 1 fuel s).2.world =
          { s.world with entries := [], dir_stream := [] } := by
  intro entries
  induction entries with
  | nil =>
    intro fuel s _ he hs hf
    obtain ⟨n, rfl⟩ : ∃ n, fuel = n + 1 := ⟨fuel - 1, by simp at hf; omega⟩
    obtain ⟨⟨en, tot, ds, opn, cl⟩, tr⟩ := s
    simp only [List.map_nil] at he hs
    subst he hs
    simp [delete_all_loop, memfs]
  | cons e rest ih =>
    intro fuel s hfiles he hs hf
    obtain ⟨n, rfl⟩ : ∃ n, fuel = n + 1 := ⟨fuel - 1, by simp at hf; omega⟩
    obtain ⟨⟨en, tot, ds, opn, cl⟩, tr⟩ := s
    simp only [List.map_cons] at he hs
    subst he hs
    obtain ⟨b, hb⟩ := hfiles e (List.mem_cons_self _ _)
    have hlook : lookup e.1 (e :: rest) = some (Node.file b) := by simp [lookup, hb]
    have hrem : remove e.1 (e :: rest) = rest := by simp [remove]
    rw [delete_all_loop]
    have hread : memfs.readdir 1 ⟨e :: rest, tot, e.1 :: rest.map Prod.fst, opn, cl⟩ =
        (some e.1, ⟨e :: rest, tot, rest.map Prod.fst, opn, cl⟩) := by
      simp [memfs]
    have hstat : memfs.stat (sprintf_path e.1) ⟨e :: rest, tot, rest.map Prod.fst, opn, cl⟩ =
        (some (Node.file b).size, ⟨e :: rest, tot, rest.map Prod.fst, opn, cl⟩) := by
      simp [memfs, resolve_sprintf_path, hlook]
    have hunlink : memfs.unlink (sprintf_path e.1)
        ⟨e :: rest, tot, rest.map Prod.fst, opn, cl⟩ =
        (0, ⟨rest, tot, rest.map Prod.fst, opn, cl⟩) := by
      simp [memfs, resolve_sprintf_path, hlook, hrem]
    simp only [bind_apply, call_apply, emit_apply, hread, hstat, hunlink]
    have h := ih n ⟨⟨rest, tot, rest.map Prod.fst, opn, cl⟩,
      tr ++ [Event.readdir 1 (some e.1)] ++ [Event.printf (Line.deleting e.1)] ++
        [Event.stat (sprintf_path e.1) (some (Node.file b).size)] ++
        [Event.unlink (sprintf_path e.1) 0]⟩
      (fun x hx => hfiles x (List.mem_cons_of_mem _ hx)) rfl rfl (by simp at hf; omega)
    exact h

/-- Deleting all files over the in-memory filesystem, on a root of regular
files: the call returns, given fuel for the entries, and leaves the root empty. -/
theorem delete_all_memfs (fs : MemFS) (fuel : Nat)
    (hfiles : ∀ e ∈ fs.entries, ∃ b, e.2 = Node.file b) (hf : fs.entries.length < fuel) :
    ((delete_all_files_in_extflash memfs fuel).run fs).1 = Res.ret () ∧
      ((delete_all_files_in_extflash memfs fuel).run fs).2.world =
        { fs with entries := [], dir_stream := [] } := by
  have hopen : memfs.opendir base_path fs =
      (some 1, { fs with dir_stream := fs.entries.map Prod.fst }) := by
    simp [memfs]
  simp only [Prog.run, delete_all_files_in_extflash, bind_apply, call_apply, hopen]
  obtain ⟨h1, h2⟩ := delete_all_loop_memfs fs.entries fuel
    ⟨{ fs with dir_stream := fs.entries.map Prod.fst },
      [] ++ [Event.opendir base_path (some 1)]⟩ hfiles rfl rfl hf
  generalize delete_all_loop memfs 1 fuel
    ⟨{ fs with dir_stream := fs.entries.map Prod.fst },
      [] ++ [Event.opendir base_path (some 1)]⟩ = r at h1 h2
  obtain ⟨res, s1⟩ := r
  simp only at h1 h2
  subst h1
  simp [memfs, h2]

/-- The claim of C7 fails on the code: with a subdirectory in the mount
root, `unlink` fails on it, its result is ignored, and the listing after the
delete still returns the entry. -/
theorem subdirectory_survives_delete :
    listed ((list_files_in_extflash memfs 5).run
        ((delete_all_files_in_extflash memfs 5).run
          { MemFS.empty 100 with entries := [(['d'], Node.dir)] }).2.world).2.trace = [['d']] ∧
      listed ((list_files_in_extflash memfs 5).run
        ((delete_all_files_in_extflash memfs 5).run
          { MemFS.empty 100 with entries := [(['d'], Node.dir)] }).2.world).2.trace ≠ [] := by
  decide!

/-- C7, amended: over the in-memory filesystem, for every state whose mount
root holds regular files only, `delete_all_files_in_extflash` (given fuel for
the entries) returns and the `list_files_in_extflash` run after it returns
with its enumeration of the root giving no entry: its one `readdir` call
returns `NULL`. -/
theorem delete_then_list_is_empty (fs : MemFS) (fuel : Nat)
    (hfiles : ∀ e ∈ fs.entries, ∃ b, e.2 = Node.file b) (hfuel : fs.entries.length < fuel) :
    ((delete_all_files_in_extflash memfs fuel).run fs).1 = Res.ret () ∧
      ((list_files_in_extflash memfs fuel).run
        ((delete_all_files_in_extflash memfs fuel).run fs).2.world).1 = Res.ret () ∧
      listed ((list_files_in_extflash memfs fuel).run
        ((delete_all_files_in_extflash memfs fuel).run fs).2.world).2.trace = [] ∧
      Event.readdir 1 none ∈ ((list_files_in_extflash memfs fuel).run
        ((delete_all_files_in_extflash memfs fuel).run fs).2.world).2.trace := by
  obtain ⟨h1, h2⟩ := delete_all_memfs fs fuel hfiles hfuel
  rw [h2]
  obtain ⟨h3, h4⟩ := list_files_memfs { fs with entries := [], dir_stream := [] } fuel
    (by simp; omega)
  refine ⟨h1, h3, ?_, ?_⟩
  · rw [h4]
    simp [listed]
  · rw [h4]
    simp

/-- C7, amended, on a root of two files. -/
theorem delete_then_list_is_empty_witness :
    ((delete_all_files_in_extflash memfs 5).run
        { MemFS.empty 100 with
          entries := [(['a'], Node.file [1, 2]), (['b'], Node.file [])] }).1 = Res.ret () ∧
      ((list_files_in_extflash memfs 5).run
        ((delete_all_files_in_extflash memfs 5).run
          { MemFS.empty 100 with
            entries := [(['a'], Node.file [1, 2]), (['b'], Node.file [])] }).2.world).1 =
        Res.ret () ∧
      listed ((list_files_in_extflash memfs 5).run
        ((delete_all_files_in_extflash memfs 5).run
          { MemFS.empty 100 with
            entries := [(['a'], Node.file [1, 2]), (['b'], Node.file [])] }).2.world).2.trace =
        [] ∧
      Event.readdir 1 none ∈ ((list_files_in_extflash memfs 5).run
        ((delete_all_files_in_extflash memfs 5).run
          { MemFS.empty 100 with
            entries := [(['a'], Node.file [1, 2]), (['b'], Node.file [])] }).2.world).2.trace :=
  delete_then_list_is_empty
    { MemFS.empty 100 with entries := [(['a'], Node.file [1, 2]), (['b'], Node.file [])] } 5
    (by
      intro e he
      simp only [List.mem_cons, List.mem_singleton, List.not_mem_nil, or_false] at he
      rcases he with rfl | rfl
      · exact ⟨[1, 2], rfl⟩
      · exact ⟨[], rfl⟩)
    (by decide)

/-! ### Free space over the in-memory filesystem -/

theorem keeps_pure {α : Type} (a : α) : Keeps (pure a : Prog MemFS α) :=
  fun _ => ⟨rfl, rfl⟩

theorem keeps_halt {α : Type} (e : Stop) : Keeps (halt e : Prog MemFS α) :=
  fun _ => ⟨rfl, rfl⟩

theorem keeps_emit (e : Event) : Keeps (emit e : Prog MemFS Unit) :=
  fun _ => ⟨rfl, rfl⟩

theorem keeps_call {α : Type} {f : MemFS → α × MemFS} {ev : α → Event}
    (h : ∀ x, (f x).2.entries = x.entries ∧ (f x).2.total = x.total) : Keeps (call f ev) :=
  fun s => h s.world

theorem keeps_call_void {f : MemFS → MemFS} {ev : Event}
    (h : ∀ x, (f x).entries = x.entries ∧ (f x).total = x.total) : Keeps (call_void f ev) :=
  fun s => h s.world

theorem keeps_bind {α β : Type} {x : Prog MemFS α} {f : α → Prog MemFS β}
    (hx : Keeps x) (hf : ∀ a, Keeps (f a)) : Keeps (x >>= f) := by
  intro s
  have h1 := hx s
  rw [bind_apply]
  generalize x s = r at h1
  obtain ⟨res, s1⟩ := r
  cases res with
  | stop e => exact h1
  | ret a =>
    have h2 := hf a s1
    simp only at h1 ⊢
    exact ⟨h2.1.trans h1.1, h2.2.trans h1.2⟩

theorem memfs_readdir_keeps (d : Nat) (x : MemFS) :
    (memfs.readdir d x).2.entries = x.entries ∧ (memfs.readdir d x).2.total = x.total := by
  simp only [memfs]
  cases x.dir_stream <;> exact ⟨rfl, rfl⟩

theorem memfs_stat_keeps (path : CStr) (x : MemFS) :
    (memfs.stat path x).2.entries = x.entries ∧ (memfs.stat path x).2.total = x.total := by
  simp only [memfs]
  cases resolve path <;> exact ⟨rfl, rfl⟩

theorem memfs_opendir_keeps (path : CStr) (x : MemFS) :
    (memfs.opendir path x).2.entries = x.entries ∧ (memfs.opendir path x).2.total = x.total := by
  simp only [memfs]
  split <;> exact ⟨rfl, rfl⟩

/-- A listing over the in-memory filesystem changes neither the root
directory nor the capacity, with any fuel. -/
theorem list_files_keeps (fuel : Nat) : Keeps (list_files_in_extflash memfs fuel) := by
  have hloop : ∀ (d n : Nat) (st : Option Nat), Keeps (list_files_loop memfs d n st) := by
    intro d n
    induction n with
    | zero => intro st; exact keeps_halt _
    | succ n ih =>
      intro st
      rw [list_files_loop]
      refine keeps_bind (keeps_call (memfs_readdir_keeps d)) fun entry => ?_
      cases entry with
      | none => exact keeps_pure _
      | some name =>
        refine keeps_bind (keeps_call (memfs_stat_keeps _)) fun r => ?_
        exact keeps_bind (keeps_emit _) fun _ => ih _
  rw [list_files_in_extflash]
  refine keeps_bind (keeps_call (memfs_opendir_keeps _)) fun dir => ?_
  cases dir with
  | none => exact keeps_halt _
  | some d =>
    refine keeps_bind (hloop d fuel none) fun _ => ?_
    refine keeps_bind (keeps_call_void fun _ => ⟨rfl, rfl⟩) fun _ => ?_
    refine keeps_bind (keeps_call fun _ => ⟨rfl, rfl⟩) fun r => ?_
    show Keeps (if r.1 ≠ ESP_OK then _ else _)
    split
    · exact keeps_emit _
    · exact keeps_emit _

theorem strip_leading_eq :
    ∀ (pre s r : CStr), strip_leading pre s = some r → s = pre ++ r := by
  intro pre
  induction pre with
  | nil =>
    intro s r h
    cases s <;> simp [strip_leading] at h <;> simp [h]
  | cons c pre ih =>
    intro s r h
    cases s with
    | nil => simp [strip_leading] at h
    | cons d s =>
      by_cases hcd : c = d
      · simp only [strip_leading, hcd, if_true] at h
        rw [hcd, ih s r h]
        rfl
      · simp [strip_leading, hcd] at h

theorem resolve_eq {path name : CStr} (h : resolve path = some name) :
    path = sprintf_path name := by
  have := strip_leading_eq _ _ _ h
  rw [this]
  simp [sprintf_path]

/-- One append over the in-memory filesystem, on any path and in any state:
the capacity stays and the octets in use grow by 12 at most. -/
theorem write_timestamp_memfs_grows (path : CStr) (ts data : Nat) (s : St MemFS) :
    (write_timestamp_and_data_to_file memfs path ts data s).2.world.total = s.world.total ∧
      used_bytes s.world.entries ≤
        used_bytes (write_timestamp_and_data_to_file memfs path ts data s).2.world.entries ∧
      used_bytes (write_timestamp_and_data_to_file memfs path ts data s).2.world.entries ≤
        used_bytes s.world.entries + 12 := by
  have hworld := (write_timestamp_world memfs path ts data s).2
  cases hres : resolve path with
  | none =>
    have hopen : memfs.fopen path s.world = (none, s.world) := by simp [memfs, hres]
    rw [hopen] at hworld
    rw [hworld]
    simp
  | some name =>
    cases hl : lookup name s.world.entries with
    | none =>
      have hp := resolve_eq hres
      subst hp
      obtain ⟨X, hX, _, _, _, h5, h6⟩ := write_timestamp_memfs_any name ts data s (Or.inl hl)
      rw [h5, h6]
      omega
    | some node =>
      cases node with
      | dir =>
        have hopen : memfs.fopen path s.world = (none, s.world) := by simp [memfs, hres, hl]
        rw [hopen] at hworld
        rw [hworld]
        simp
      | file old =>
        have hp := resolve_eq hres
        subst hp
        obtain ⟨X, hX, _, _, _, h5, h6⟩ :=
          write_timestamp_memfs_any name ts data s (Or.inr ⟨old, hl⟩)
        rw [h5, h6]
        omega

theorem readings_append (a b : List Event) : readings (a ++ b) = readings a ++ readings b := by
  simp [readings, marks]

/-- An append adds no free-space reading to the trace. -/
theorem write_timestamp_readings {σ : Type} (w : World σ) (path : CStr) (ts data : Nat)
    (s : St σ) :
    readings (write_timestamp_and_data_to_file w path ts data s).2.trace = readings s.trace := by
  rw [write_timestamp_trace, readings_append, readings_append]
  cases (w.fopen path s.world).1 <;> simp [readings, marks, mark_of, Mark.reading?]

/-- A listing adds no free-space reading to the trace. -/
theorem list_files_readings {σ : Type} (w : World σ) (fuel : Nat) (s : St σ) :
    readings (list_files_in_extflash w fuel s).2.trace = readings s.trace := by
  obtain ⟨d, hd, hall⟩ := list_files_adds w fuel s
  rw [hd, readings_append]
  have hm : marks d = [] := by
    rw [marks, List.filterMap_eq_nil_iff]
    intro e he
    have h := hall e he
    cases e <;> simp_all [is_listing, mark_of]
  have : readings d = [] := by
    rw [readings, hm]
    rfl
  rw [this, List.append_nil]

theorem free_of_step (total used used1 : Nat)
    (h : data_size ≤ free_of (ESP_OK, total, used)) (h1 : used ≤ used1)
    (h2 : used1 ≤ used + 12) :
    free_of (ESP_OK, total, used1) ≤ free_of (ESP_OK, total, used) := by
  simp only [free_of, ne_eq, not_true_eq_false, if_false, SIZE_T, data_size] at h ⊢
  omega

/-- The fill loop over the in-memory filesystem, from any state and on any
path: each reading it takes is at most the one before. -/
theorem fill_loop_memfs (path : CStr) :
    ∀ (fuel data free : Nat) (s : St MemFS),
      free = free_of (ESP_OK, s.world.total, used_bytes s.world.entries) →
      ∃ rds : List Reading,
        readings (fill_loop memfs path fuel data free s).2.trace = readings s.trace ++ rds ∧
        List.Pairwise (fun a b : Reading => b.free_space ≤ a.free_space) rds ∧
        ∀ r ∈ rds, r.free_space ≤ free := by
  intro fuel
  induction fuel with
  | zero =>
    intro data free s _
    refine ⟨[], ?_, List.Pairwise.nil, by simp⟩
    by_cases h : free ≥ data_size <;> simp [fill_loop, h]
  | succ n ih =>
    intro data free s hfree
    by_cases h : free ≥ data_size
    · rw [fill_loop, if_pos h]
      simp only [bind_apply, call_apply]
      have hg := write_timestamp_memfs_grows path
        ((memfs.esp_timer_get_time s.world).1 % (UINT64 : Int)).toNat data
        ⟨(memfs.esp_timer_get_time s.world).2,
          s.trace ++ [Event.esp_timer_get_time (memfs.esp_timer_get_time s.world).1]⟩
      have hr := write_timestamp_readings memfs path
        ((memfs.esp_timer_get_time s.world).1 % (UINT64 : Int)).toNat data
        ⟨(memfs.esp_timer_get_time s.world).2,
          s.trace ++ [Event.esp_timer_get_time (memfs.esp_timer_get_time s.world).1]⟩
      have hret := (write_timestamp_world memfs path
        ((memfs.esp_timer_get_time s.world).1 % (UINT64 : Int)).toNat data
        ⟨(memfs.esp_timer_get_time s.world).2,
          s.trace ++ [Event.esp_timer_get_time (memfs.esp_timer_get_time s.world).1]⟩).1
      generalize write_timestamp_and_data_to_file memfs path
        ((memfs.esp_timer_get_time s.world).1 % (UINT64 : Int)).toNat data
        ⟨(memfs.esp_timer_get_time s.world).2,
          s.trace ++ [Event.esp_timer_get_time (memfs.esp_timer_get_time s.world).1]⟩ = x
        at hg hr hret
      obtain ⟨res, s2⟩ := x
      simp only at hg hr hret
      subst hret
      have hg1 : s2.world.total = s.world.total := hg.1
      have hg2 : used_bytes s.world.entries ≤ used_bytes s2.world.entries := hg.2.1
      have hg3 : used_bytes s2.world.entries ≤ used_bytes s.world.entries + 12 := hg.2.2
      have hr2 : readings s2.trace = readings s.trace := by
        rw [hr, readings_append]
        simp [readings, marks, mark_of]
      simp only [emit_apply, get_littlefs_free_space_apply]
      generalize hs4 :
        St.mk (memfs.esp_littlefs_partition_info (memfs.esp_timer_get_time s2.world).2).2 _ = s4
      have hw4 := congrArg St.world hs4
      have ht4 := congrArg St.trace hs4
      simp only at hw4 ht4
      have hinfo : (memfs.esp_littlefs_partition_info (memfs.esp_timer_get_time s2.world).2).1 =
          (ESP_OK, s2.world.total, used_bytes s2.world.entries) := rfl
      rw [hinfo] at ht4 ⊢
      have he4 : s4.world.entries = s2.world.entries := by rw [← hw4]; rfl
      have hT4 : s4.world.total = s2.world.total := by rw [← hw4]; rfl
      have hr4 : readings s4.trace =
          readings s.trace ++
            [reading_of (ESP_OK, s2.world.total, used_bytes s2.world.entries)] := by
        rw [← ht4]
        simp only [readings_append, hr2]
        simp [readings, marks, mark_of, Mark.reading?, reading_event, reading_of]
      clear hs4 hw4 ht4 hinfo hr hg
      have hle : free_of (ESP_OK, s2.world.total, used_bytes s2.world.entries) ≤ free := by
        rw [hfree, hg1]
        exact free_of_step _ _ _ (by rw [← hfree]; exact h) hg2 hg3
      have hfin : ∀ s5 : St MemFS, s5.world.entries = s4.world.entries →
          s5.world.total = s4.world.total → readings s5.trace = readings s4.trace →
          ∃ rds : List Reading,
            readings (fill_loop memfs path n ((data + 1) % UINT32)
              (free_of (ESP_OK, s2.world.total, used_bytes s2.world.entries)) s5).2.trace =
              readings s.trace ++ rds ∧
            List.Pairwise (fun a b : Reading => b.free_space ≤ a.free_space) rds ∧
            ∀ r ∈ rds, r.free_space ≤ free := by
        intro s5 h5e h5t h5r
        obtain ⟨rds, i1, i2, i3⟩ := ih ((data + 1) % UINT32)
          (free_of (ESP_OK, s2.world.total, used_bytes s2.world.entries)) s5
          (by rw [h5e, h5t, he4, hT4])
        refine ⟨reading_of (ESP_OK, s2.world.total, used_bytes s2.world.entries) :: rds,
          ?_, ?_, ?_⟩
        · rw [i1, h5r, hr4, List.append_assoc]
          rfl
        · rw [List.pairwise_cons]
          exact ⟨fun r hr => i3 r hr, i2⟩
        · intro r hr
          rcases List.mem_cons.1 hr with rfl | hr
          · exact hle
          · exact Nat.le_trans (i3 r hr) hle
      by_cases hb : (data + 1) % UINT32 % 1000 = 0
      · rw [if_pos hb, bind_apply]
        have hk := list_files_keeps n s4
        have hlr := list_files_readings memfs n s4
        generalize list_files_in_extflash memfs n s4 = rl at hk hlr
        obtain ⟨res, s5⟩ := rl
        simp only at hk hlr
        cases res with
        | stop e =>
          refine ⟨[reading_of (ESP_OK, s2.world.total, used_bytes s2.world.entries)],
            ?_, List.pairwise_singleton _ _, ?_⟩
          · show readings s5.trace = _
            rw [hlr, hr4]
          · intro r hr
            rw [List.mem_singleton] at hr
            subst hr
            exact hle
        | ret u => exact hfin s5 hk.1 hk.2 hlr
      · rw [if_neg hb, bind_apply, pure_apply]
        exact hfin s4 rfl rfl rfl
    · refine ⟨[], ?_, List.Pairwise.nil, by simp⟩
      simp [fill_loop, h]

/-- C9: over the in-memory filesystem, in any run of
`fill_flash_with_data`, from any state of the filesystem and on any path (the
loop deletes nothing), the free space `get_littlefs_free_space` reports after
an append is at most the free space it reported before: the sequence of
free-space readings is non-increasing.  The first reading is the one of the
state the run starts in, and a run that returns ends on a reading below 12. -/
theorem readings_non_increasing (fs : MemFS) (path : CStr) (fuel : Nat) :
    List.Pairwise (fun a b : Reading => b.free_space ≤ a.free_space)
        (readings ((fill_flash_with_data memfs path fuel).run fs).2.trace) ∧
      (readings ((fill_flash_with_data memfs path fuel).run fs).2.trace).head? =
        some (reading_of (ESP_OK, fs.total, used_bytes fs.entries)) ∧
      (((fill_flash_with_data memfs path fuel).run fs).1 = Res.ret () →
        ∃ last, (readings ((fill_flash_with_data memfs path fuel).run fs).2.trace).getLast? =
          some last ∧ last.free_space < 12) := by
  have hlast : ((fill_flash_with_data memfs path fuel).run fs).1 = Res.ret () →
      ∃ last, (readings ((fill_flash_with_data memfs path fuel).run fs).2.trace).getLast? =
        some last ∧ last.free_space < 12 := by
    intro hres
    obtain ⟨rs, last, hm, _, _, _, hret, _⟩ := fill_marks memfs path fuel fs
    refine ⟨last, ?_, hret hres⟩
    rw [readings_appends_after rs last _ hm]
    simp
  have hmain : List.Pairwise (fun a b : Reading => b.free_space ≤ a.free_space)
        (readings ((fill_flash_with_data memfs path fuel).run fs).2.trace) ∧
      (readings ((fill_flash_with_data memfs path fuel).run fs).2.trace).head? =
        some (reading_of (ESP_OK, fs.total, used_bytes fs.entries)) := by
    simp only [Prog.run, fill_flash_with_data, bind_apply, get_littlefs_free_space_apply]
    have hinfo : (memfs.esp_littlefs_partition_info fs).1 =
        (ESP_OK, fs.total, used_bytes fs.entries) := rfl
    rw [hinfo]
    generalize hs1 : St.mk (memfs.esp_littlefs_partition_info fs).2 _ = s1
    have hw1 := congrArg St.world hs1
    have ht1 := congrArg St.trace hs1
    simp only at hw1 ht1
    have he1 : s1.world.entries = fs.entries := by rw [← hw1]; rfl
    have hT1 : s1.world.total = fs.total := by rw [← hw1]; rfl
    have hr1 : readings s1.trace = [reading_of (ESP_OK, fs.total, used_bytes fs.entries)] := by
      rw [← ht1]
      simp [readings, marks, mark_of, Mark.reading?, reading_event, reading_of]
    obtain ⟨rds, i1, i2, i3⟩ := fill_loop_memfs path fuel 0
      (free_of (ESP_OK, fs.total, used_bytes fs.entries)) s1 (by rw [he1, hT1])
    generalize fill_loop memfs path fuel 0
      (free_of (ESP_OK, fs.total, used_bytes fs.entries)) s1 = r at i1
    obtain ⟨res, s2⟩ := r
    simp only at i1
    have hall : ∀ tr : List Event, readings tr = readings s2.trace →
        List.Pairwise (fun a b : Reading => b.free_space ≤ a.free_space) (readings tr) ∧
          (readings tr).head? =
            some (reading_of (ESP_OK, fs.total, used_bytes fs.entries)) := by
      intro tr htr
      rw [htr, i1, hr1]
      refine ⟨?_, rfl⟩
      rw [List.singleton_append, List.pairwise_cons]
      exact ⟨fun r hr => i3 r hr, i2⟩
    cases res with
    | stop e => exact hall _ rfl
    | ret u =>
      refine hall _ ?_
      simp [readings_append, readings, marks, mark_of]
  exact ⟨hmain.1, hmain.2, hlast⟩

/-- C9 on a medium of 40 octets: the readings are 40, 28, 16 and 4. -/
theorem readings_non_increasing_witness :
    (List.Pairwise (fun a b : Reading => b.free_space ≤ a.free_space)
        (readings ((fill_flash_with_data memfs (sprintf_path ['t']) 5).run
          (MemFS.empty 40)).2.trace) ∧
      (readings ((fill_flash_with_data memfs (sprintf_path ['t']) 5).run
          (MemFS.empty 40)).2.trace).head? =
        some (reading_of (ESP_OK, (MemFS.empty 40).total,
          used_bytes (MemFS.empty 40).entries)) ∧
      (((fill_flash_with_data memfs (sprintf_path ['t']) 5).run (MemFS.empty 40)).1 =
          Res.ret () →
        ∃ last, (readings ((fill_flash_with_data memfs (sprintf_path ['t']) 5).run
            (MemFS.empty 40)).2.trace).getLast? = some last ∧ last.free_space < 12)) ∧
    ((fill_flash_with_data memfs (sprintf_path ['t']) 5).run (MemFS.empty 40)).1 =
      Res.ret () ∧
    (readings ((fill_flash_with_data memfs (sprintf_path ['t']) 5).run
        (MemFS.empty 40)).2.trace).map Reading.free_space = [40, 28, 16, 4] :=
  ⟨readings_non_increasing (MemFS.empty 40) (sprintf_path ['t']) 5, by decide!, by decide!⟩

end Mem

end ExtFlash
